import Mathlib

/-!
Verification of the schema-evolution utilities of the DataVerser repository.

The definitions below are a shallow embedding of
src/dynamic-etl-frontend-v2/src/utils/schemaUtils.js (normalizeFieldsArray,
buildFieldMap, diffSchemas, computeStability, fieldTimeline) together with a
model, taken from the specification, of the Fragment Detector scanner whose
implementation is not part of the available sources.

The field map built by buildFieldMap is a plain JS object, so it inherits
Object.prototype: it is modelled as own entries (an association list with JS
property-write semantics: update in place, append at end) together with a
prototype state.  A read of an absent key consults the prototype chain, so
keys such as toString or constructor yield inherited truthy function values,
and reading __proto__ yields the receiver's prototype; a write to the key
__proto__ invokes the inherited accessor setter, replacing the prototype and
creating no own key, so Object.keys never lists it.  The result of a property
read is a JSValue: undefined, an own field-descriptor object, a string or
boolean reached through a field object installed as prototype, or an inherited
Object.prototype member.  JS numbers in computeStability are modelled with
exact rationals and an explicit half-up rounding for Math.round; absent JS
object properties are modelled with Option.  Object.keys order is modelled as
insertion order for every key (JS additionally fronts array-index-like keys in
numeric order; none of the properties proved here depends on the order of
allNames, only on its members and multiplicities, and the concrete examples
use no array-index-like field names).
-/

set_option maxRecDepth 4000

namespace DataVerser

/-- A raw field object as received by normalizeFieldsArray: every property may
be absent (undefined).  String-valued properties are modelled as Option String,
the nullable property as Option Bool, and the truthiness of the new property
as Bool. -/
structure RawField where
  name : Option String := none
  field : Option String := none
  type : Option String := none
  nullable : Option Bool := none
  new : Bool := false
deriving DecidableEq, Repr

/-- A normalized field, the shape produced by normalizeFieldsArray:
{ name, type, nullable, new? }. -/
structure Field where
  name : String
  type : String
  nullable : Bool
  new : Bool
deriving DecidableEq, Repr

/-- One element of the map of normalizeFieldsArray:
name := f.name ?? String(f.field ?? '').trim(),
type := (f.type ?? 'unknown').toString(),
nullable := f.nullable !== false, and the new marker is kept when truthy. -/
def normalizeField (f : RawField) : Field :=
  { name := f.name.getD (f.field.getD "").trim
    type := f.type.getD "unknown"
    nullable := decide (f.nullable ≠ some false)
    new := f.new }

/-- normalizeFieldsArray(fields): (fields || []).map of normalizeField. -/
def normalizeFieldsArray (fields : List RawField) : List Field :=
  fields.map normalizeField

/-- The list of names of the normalized fields of a raw field list. -/
def normNames (fields : List RawField) : List String :=
  (normalizeFieldsArray fields).map (fun f => f.name)

/-- Own-entry write map[k] = v on a plain object (for a key other than
__proto__): replace the value at an existing own key in place, otherwise
append the new key at the end (JS insertion order). -/
def objInsert : List (String × Field) → String → Field → List (String × Field)
  | [], k, v => [(k, v)]
  | p :: rest, k, v => if p.1 = k then (k, v) :: rest else p :: objInsert rest k v

/-- Own-property lookup: the value stored at an own key, if any. -/
def objGet : List (String × Field) → String → Option Field
  | [], _ => none
  | p :: rest, k => if p.1 = k then some p.2 else objGet rest k

/-- Object.keys: the own enumerable keys in insertion order (inherited keys
and the prototype are never listed). -/
def objKeys (m : List (String × Field)) : List String :=
  m.map (fun p => p.1)

/-- The names of the own data properties of Object.prototype (all
function-valued, hence truthy); the accessor __proto__ is handled
separately. -/
def protoKeys : List String :=
  ["constructor", "hasOwnProperty", "isPrototypeOf", "propertyIsEnumerable",
    "toLocaleString", "toString", "valueOf",
    "__defineGetter__", "__defineSetter__", "__lookupGetter__",
    "__lookupSetter__"]

/-- The keys at which a plain object does not behave like an empty dictionary:
the Object.prototype members plus the __proto__ accessor. -/
def specialNames : List String := "__proto__" :: protoKeys

/-- The prototype of the field map: initially Object.prototype; a write to the
key __proto__ replaces it with the assigned normalized field object. -/
inductive ProtoState where
  | objectProto
  | fieldProto (f : Field)
deriving DecidableEq, Repr

/-- The field map object: own entries plus the current prototype. -/
structure JSMap where
  own : List (String × Field)
  proto : ProtoState
deriving DecidableEq, Repr

/-- The value of a JS property read on the field map: undefined, an own
normalized field object, a string or boolean obtained through a field object
installed as the prototype, or a member inherited from Object.prototype
(tagged by its key; for the key __proto__ with an unreplaced prototype this
denotes the Object.prototype object itself). -/
inductive JSValue where
  | undef
  | fieldV (f : Field)
  | strV (s : String)
  | boolV (b : Bool)
  | inherited (k : String)
deriving DecidableEq, Repr

/-- Own-property read on a normalized field object literal
{ name, type, nullable, new? }: name and type are strings, nullable a boolean,
and new is the boolean true exactly when the marker was kept. -/
def fieldObjGet (f : Field) (k : String) : Option JSValue :=
  if k = "name" then some (JSValue.strV f.name)
  else if k = "type" then some (JSValue.strV f.type)
  else if k = "nullable" then some (JSValue.boolV f.nullable)
  else if k = "new" then (if f.new then some (JSValue.boolV true) else none)
  else none

/-- JS property read map[k]: own property first, then the prototype chain.
With the original prototype, an absent key resolves to the inherited
Object.prototype member when there is one (truthy), and __proto__ resolves via
its getter to the prototype object.  With a field object installed as
prototype, its own properties are consulted next, then Object.prototype at the
end of the chain. -/
def jsGet (m : JSMap) (k : String) : JSValue :=
  match objGet m.own k with
  | some f => JSValue.fieldV f
  | none =>
    match m.proto with
    | ProtoState.objectProto =>
      if k = "__proto__" then JSValue.inherited "__proto__"
      else if k ∈ protoKeys then JSValue.inherited k
      else JSValue.undef
    | ProtoState.fieldProto f =>
      match fieldObjGet f k with
      | some v => v
      | none =>
        if k = "__proto__" then JSValue.fieldV f
        else if k ∈ protoKeys then JSValue.inherited k
        else JSValue.undef

/-- JS property write map[k] = v on the plain field map: assigning to the key
__proto__ finds the inherited accessor and invokes its setter, which replaces
the prototype with v (an object here) and creates no own property; any other
key creates or updates an own property. -/
def jsSet (m : JSMap) (k : String) (v : Field) : JSMap :=
  if k = "__proto__" then { own := m.own, proto := ProtoState.fieldProto v }
  else { own := objInsert m.own k v, proto := m.proto }

/-- The forEach of buildFieldMap from an arbitrary starting map. -/
def insertAllJS (l : List Field) (m : JSMap) : JSMap :=
  l.foldl (fun m f => jsSet m f.name f) m

/-- buildFieldMap(fields): normalize the fields, then assign each (as a copy)
into an initially empty plain object under its name. -/
def buildFieldMap (fields : List RawField) : JSMap :=
  insertAllJS (normalizeFieldsArray fields)
    { own := [], proto := ProtoState.objectProto }

/-- The own entries buildFieldMap produces when no field is named __proto__
(the clean case): every normalized field is assigned as an own entry. -/
def cleanOwnMap (fields : List RawField) : List (String × Field) :=
  (normalizeFieldsArray fields).foldl (fun m f => objInsert m f.name f) []

/-- A field list is clean when none of its normalized names collides with the
prototype machinery of a plain object: no name is __proto__ or an
Object.prototype member. -/
def cleanFields (fields : List RawField) : Prop :=
  ∀ n ∈ normNames fields, n ∉ specialNames

instance cleanFieldsDecidable (fields : List RawField) :
    Decidable (cleanFields fields) :=
  inferInstanceAs (Decidable (∀ n ∈ normNames fields, n ∉ specialNames))

/-- JS truthiness of a property-read result: undefined is falsy, objects
(field descriptors and inherited members) are truthy, a string is truthy when
nonempty, a boolean is its own truth value. -/
def truthy : JSValue → Bool
  | JSValue.undef => false
  | JSValue.fieldV _ => true
  | JSValue.strV s => decide (s ≠ "")
  | JSValue.boolV b => b
  | JSValue.inherited _ => true

/-- The property read v.type: defined (a string) only on a field-descriptor
object; strings, booleans, and the inherited members have no type property. -/
def typeProp : JSValue → Option String
  | JSValue.fieldV f => some f.type
  | _ => none

/-- The property read v.nullable: defined (a boolean) only on a
field-descriptor object. -/
def nullableProp : JSValue → Option Bool
  | JSValue.fieldV f => some f.nullable
  | _ => none

/-- The JS coercion !!x for x a boolean or undefined. -/
def boolBang (o : Option Bool) : Bool :=
  o.getD false

/-- The JS expression x || '' for x a string or undefined. -/
def orEmptyOpt (o : Option String) : String :=
  match o with
  | some s => if s = "" then "" else s
  | none => ""

/-- Array.from(new Set(l)): deduplicate a list keeping the first occurrence of
each element. -/
def jsDedup (l : List String) : List String :=
  go [] l
where
  /-- Walk the list with the set of elements already seen. -/
  go (seen : List String) : List String → List String
  | [] => []
  | x :: xs => if x ∈ seen then go seen xs else x :: go (x :: seen) xs

/-- The before/after payload of a changed entry: { type, nullable }, read off
the compared values with plain property access, hence possibly undefined when
the compared value is not a field-descriptor object. -/
structure TypeNull where
  type : Option String
  nullable : Option Bool
deriving DecidableEq, Repr

/-- A changed entry of diffSchemas:
{ name, before: {type, nullable}, after: {type, nullable}, diffs }. -/
structure ChangedEntry where
  name : String
  before : TypeNull
  after : TypeNull
  diffs : List String
deriving DecidableEq, Repr

/-- The value returned by diffSchemas:
{ added: [], removed: [], changed: [], unchanged: [] }; added, removed and
unchanged hold the pushed property-read results. -/
structure DiffResult where
  added : List JSValue
  removed : List JSValue
  changed : List ChangedEntry
  unchanged : List JSValue
deriving DecidableEq, Repr

/-- A schema argument of diffSchemas: an object with a fields array (an absent
or null fields property reads as the empty list, matching fields || []). -/
structure Schema where
  fields : List RawField
deriving DecidableEq, Repr

/-- The diffs list of the comparison branch of diffSchemas: 'type' when
(a.type || '') !== (b.type || ''), then 'nullable' when
(!!a.nullable) !== (!!b.nullable), with a and b the raw property-read
results. -/
def fieldDiffs (a b : JSValue) : List String :=
  (if orEmptyOpt (typeProp a) ≠ orEmptyOpt (typeProp b) then ["type"] else [])
    ++ (if boolBang (nullableProp a) ≠ boolBang (nullableProp b)
        then ["nullable"] else [])

/-- diffSchemas(oldSchema, newSchema).  The single forEach loop of the source
reads a = oldMap[name] and b = newMap[name] (prototype chain included), takes
the added branch on !a && b, the removed branch on a && !b, and otherwise
compares; each result array is the filterMap, over allNames, of the arm that
feeds it.  allNames is built from Object.keys, so it lists own keys only. -/
def diffSchemas (oldSchema newSchema : Schema) : DiffResult :=
  let oldMap := buildFieldMap oldSchema.fields
  let newMap := buildFieldMap newSchema.fields
  let allNames := jsDedup (objKeys oldMap.own ++ objKeys newMap.own)
  { added := allNames.filterMap fun n =>
      let a := jsGet oldMap n
      let b := jsGet newMap n
      if truthy a = false ∧ truthy b = true then some b else none
    removed := allNames.filterMap fun n =>
      let a := jsGet oldMap n
      let b := jsGet newMap n
      if truthy a = false ∧ truthy b = true then none
      else if truthy a = true ∧ truthy b = false then some a else none
    changed := allNames.filterMap fun n =>
      let a := jsGet oldMap n
      let b := jsGet newMap n
      if truthy a = false ∧ truthy b = true then none
      else if truthy a = true ∧ truthy b = false then none
      else if (fieldDiffs a b).isEmpty then none
      else some { name := n
                  before := { type := typeProp a, nullable := nullableProp a }
                  after := { type := typeProp b, nullable := nullableProp b }
                  diffs := fieldDiffs a b }
    unchanged := allNames.filterMap fun n =>
      let a := jsGet oldMap n
      let b := jsGet newMap n
      if truthy a = false ∧ truthy b = true then none
      else if truthy a = true ∧ truthy b = false then none
      else if (fieldDiffs a b).isEmpty then some b else none }

/-- The loop body test of computeStability: an adjacent pair is stable when
diff.added.length + diff.removed.length + diff.changed.length === 0. -/
def isStableStep (p : Schema × Schema) : Bool :=
  (diffSchemas p.1 p.2).added.length + (diffSchemas p.1 p.2).removed.length
    + (diffSchemas p.1 p.2).changed.length == 0

/-- Math.round on a nonnegative value: round half toward positive infinity. -/
def jsRound (q : ℚ) : ℤ :=
  ⌊q + 1 / 2⌋

/-- computeStability(history): 100 for fewer than two versions; otherwise the
loop over i = 1 .. length-1 counts one check per adjacent pair and one stable
check per pair whose diff has no added, removed, or changed entry, and the
result is Math.round((stableChecks / totalChecks) * 100). -/
def computeStability (history : List Schema) : ℤ :=
  if history.length < 2 then 100
  else
    let pairs := history.zip history.tail
    let totalChecks : ℕ := pairs.length
    let stableChecks : ℕ := pairs.countP isStableStep
    jsRound ((stableChecks : ℚ) / (totalChecks : ℚ) * 100)

/-- Every adjacent pair of the history passes the stability test. -/
def allStable (history : List Schema) : Bool :=
  (history.zip history.tail).all isStableStep

/-- The schema property of a history entry of fieldTimeline: either an object
carrying a fields array or a bare fields array. -/
inductive SchemaBox where
  | fieldsObj (fields : List RawField)
  | fieldsArr (fields : List RawField)
deriving DecidableEq, Repr

/-- One element of the history argument of fieldTimeline; absent properties
are none. -/
structure HistEntry where
  schema : Option SchemaBox := none
  version : Option String := none
  id : Option String := none
  created_at : Option String := none
  timestamp : Option String := none
deriving DecidableEq, Repr

/-- JS truthiness filter on an optional string: the empty string is falsy. -/
def truthyStr (o : Option String) : Option String :=
  match o with
  | some s => if s = "" then none else some s
  | none => none

/-- s.schema?.fields || s.schema || [] — an object yields its fields array
(a present empty array is truthy), a bare array yields itself, and an absent
schema yields []. -/
def entryFields (e : HistEntry) : List RawField :=
  match e.schema with
  | some (SchemaBox.fieldsObj fs) => fs
  | some (SchemaBox.fieldsArr fs) => fs
  | none => []

/-- One element of the array returned by fieldTimeline. -/
structure TimelineEntry where
  version : String
  created_at : Option String
  present : Bool
  type : Option String
  nullable : Option Bool
deriving DecidableEq, Repr

/-- The body of the map of fieldTimeline: look the field name up in the
field map of this version and report
{ version: s.version || s.version || s.id || 'v?',
  created_at: s.created_at || s.timestamp || null,
  present: !!f, type: f?.type || null, nullable: f ? !!f.nullable : null }. -/
def timelineEntry (fieldName : String) (e : HistEntry) : TimelineEntry :=
  let f := jsGet (buildFieldMap (entryFields e)) fieldName
  { version :=
      ((truthyStr e.version).or ((truthyStr e.version).or (truthyStr e.id))).getD "v?"
    created_at := (truthyStr e.created_at).or (truthyStr e.timestamp)
    present := truthy f
    type :=
      match typeProp f with
      | some t => if t = "" then none else some t
      | none => none
    nullable :=
      if truthy f then some (boolBang (nullableProp f)) else none }

/-- fieldTimeline(fieldName, history): (history || []).map of timelineEntry,
oldest to newest. -/
def fieldTimeline (fieldName : String) (history : List HistEntry) : List TimelineEntry :=
  history.map (timelineEntry fieldName)

/-!
Fragment Detector.

Modelled from the spec: the Fragment Detector component is not among the
available sources (only its documentation is), so the scanner loop of spec
section 4.1 is embedded here.  Following the spec, the detector is an
explicit priority-ordered list of detector rules; each rule, applied at the
current scan position, either consumes a span of positive length or does not
match, and a position unmatched by every rule is accumulated into the current
RawText fragment until a structured match resumes.
-/

/-- The kind of a detected fragment. -/
inductive FragKind where
  | json
  | htmlTable
  | csv
  | keyValue
  | rawText
deriving DecidableEq, Repr

/-- A fragment: its kind and the span of characters it covers. -/
structure Fragment where
  kind : FragKind
  chars : List Char
deriving DecidableEq, Repr

/-- A detector rule: a kind together with a matcher that, at the current scan
position (the remaining buffer), yields the length of the span it consumes,
or none when it does not match there. -/
structure DetectorRule where
  kind : FragKind
  matchLen : List Char → Option ℕ

/-- Try the rules in priority order and return the first match. -/
def firstMatch : List DetectorRule → List Char → Option (FragKind × ℕ)
  | [], _ => none
  | d :: ds, buf =>
    match d.matchLen buf with
    | some n => some (d.kind, n)
    | none => firstMatch ds buf

/-- Flush the pending RawText accumulator in front of the fragments that
follow it; an empty accumulator contributes nothing. -/
def emitRaw (raw : List Char) (fs : List Fragment) : List Fragment :=
  if raw.isEmpty then fs else { kind := FragKind.rawText, chars := raw } :: fs

/-- The scanner loop: at each position try the rules in order; a match of
positive length is emitted as a structured fragment (flushing the pending
RawText first) and the scanner advances past the consumed span; an unmatched
position (or a degenerate zero-length match) is accumulated into the pending
RawText. -/
def scanAux (rules : List DetectorRule) (raw : List Char) (buf : List Char) :
    List Fragment :=
  match buf with
  | [] => emitRaw raw []
  | c :: rest =>
    match firstMatch rules (c :: rest) with
    | some (k, n) =>
      if _h : 0 < n then
        emitRaw raw
          ({ kind := k, chars := (c :: rest).take n }
            :: scanAux rules [] ((c :: rest).drop n))
      else
        scanAux rules (raw ++ [c]) rest
    | none => scanAux rules (raw ++ [c]) rest
termination_by buf.length
decreasing_by
  all_goals simp only [List.length_drop, List.length_cons]
  all_goals omega

/-- detectFragments: run the scanner over the whole buffer with an empty
pending RawText accumulator. -/
def detectFragments (rules : List DetectorRule) (buf : List Char) : List Fragment :=
  scanAux rules [] buf

/-! Concrete data used by witnesses and counterexamples. -/

/-- The id field of spec example scenario 2. -/
def exId : RawField := { name := some "id", type := some "string" }

/-- The version-1 price field of spec example scenario 2: a string price. -/
def exPriceStr : RawField := { name := some "price", type := some "string" }

/-- The version-2 price field of spec example scenario 2: a decimal price. -/
def exPriceDec : RawField := { name := some "price", type := some "decimal" }

/-- The currency field added in version 2 of spec example scenario 2. -/
def exCurrency : RawField := { name := some "currency", type := some "string" }

/-- The version-1 schema of spec example scenario 2. -/
def schemaV1 : Schema := { fields := [exId, exPriceStr] }

/-- The version-2 schema of spec example scenario 2. -/
def schemaV2 : Schema := { fields := [exId, exPriceDec, exCurrency] }

/-- A one-field schema with type x at name a. -/
def schemaAx : Schema := { fields := [{ name := some "a", type := some "x" }] }

/-- A one-field schema with type y at name a. -/
def schemaAy : Schema := { fields := [{ name := some "a", type := some "y" }] }

/-- A 201-version history: one type change followed by 199 identical steps.
199 of its 200 adjacent diffs are empty, so stableChecks/totalChecks is
199/200 and Math.round((199/200)*100) = Math.round(99.5) = 100 although one
adjacent diff is nonempty. -/
def roundingHistory : List Schema := schemaAx :: List.replicate 200 schemaAy

/-- The normalized id field of the example schemas. -/
def idField : Field := { name := "id", type := "string", nullable := true, new := false }

/-- Raw field p (string). -/
def exP : RawField := { name := some "p", type := some "string" }

/-- Raw field q with type string. -/
def exQ : RawField := { name := some "q", type := some "string" }

/-- Raw field q with type decimal. -/
def exQd : RawField := { name := some "q", type := some "decimal" }

/-- Raw field r (string). -/
def exR : RawField := { name := some "r", type := some "string" }

/-- A schema with fields p and q, exercising removal and change. -/
def schemaW1 : Schema := { fields := [exP, exQ] }

/-- A schema with fields q (retyped) and r, exercising addition and change. -/
def schemaW2 : Schema := { fields := [exQd, exR] }

/-- The normalized r field, added by diffing schemaW1 against schemaW2. -/
def fieldR : Field := { name := "r", type := "string", nullable := true, new := false }

/-- The normalized p field, removed by diffing schemaW1 against schemaW2. -/
def fieldP : Field := { name := "p", type := "string", nullable := true, new := false }

/-- The changed entry for q produced by diffing schemaW1 against schemaW2. -/
def changedQ : ChangedEntry :=
  { name := "q"
    before := { type := some "string", nullable := some true }
    after := { type := some "decimal", nullable := some true }
    diffs := ["type"] }

/-- A raw field named toString: its name collides with an inherited
Object.prototype member. -/
def exToString : RawField := { name := some "toString", type := some "string" }

/-- A benign one-field schema (field a of type x). -/
def schemaT1 : Schema := { fields := [{ name := some "a", type := some "x" }] }

/-- schemaT1 extended by a field named toString. -/
def schemaT2 : Schema :=
  { fields := [{ name := some "a", type := some "x" }, exToString] }

/-- A raw field named proto-key __proto__ with type x. -/
def exProtoField : RawField := { name := some "__proto__", type := some "x" }

/-- A schema whose only field is named __proto__: the buildFieldMap assignment
hits the prototype setter and creates no own key. -/
def schemaProto : Schema := { fields := [exProtoField] }

/-- A raw field named __proto__ with type x, explicitly non-nullable. -/
def exProtoNF : RawField :=
  { name := some "__proto__", type := some "x", nullable := some false }

/-- A schema whose only field is named __proto__ and is explicitly
non-nullable. -/
def schemaProtoNF : Schema := { fields := [exProtoNF] }

/-- A history entry with an empty field list, for the timeline
counterexample. -/
def histEmpty : HistEntry := { schema := some (SchemaBox.fieldsObj []) }

/-- A raw field with nullable explicitly false. -/
def rfNullFalse : RawField :=
  { name := some "n", type := some "string", nullable := some false }

/-- A raw field with nullable absent. -/
def rfNullAbsent : RawField := { name := some "n", type := some "string" }

/-- A one-field schema whose field is explicitly non-nullable. -/
def schemaN1 : Schema := { fields := [rfNullFalse] }

/-- A one-field schema whose field has no nullable marker. -/
def schemaN2 : Schema := { fields := [rfNullAbsent] }

/-- Version 1 of the timeline example: price exists, inside a schema object. -/
def histE1 : HistEntry :=
  { schema := some (SchemaBox.fieldsObj [exPriceStr]), version := some "1" }

/-- Version 2 of the timeline example: price is gone, fields given as a bare
array, version falling back to the id. -/
def histE2 : HistEntry :=
  { schema := some (SchemaBox.fieldsArr [exId]), id := some "7" }

/-- A two-entry timeline history: the field price exists in version 1 and is
gone in version 2. -/
def exTimelineHistory : List HistEntry := [histE1, histE2]

/-! ### Lemmas about the JS object model -/

theorem objGet_insert (m : List (String × Field)) (k : String) (v : Field)
    (k' : String) :
    objGet (objInsert m k v) k' = if k = k' then some v else objGet m k' := by
  induction m with
  | nil => simp [objInsert, objGet]
  | cons p rest ih =>
    by_cases hpk : p.1 = k
    · subst hpk
      simp only [objInsert, if_pos rfl, objGet]
      by_cases hk : p.1 = k'
      · subst hk; simp
      · simp [hk]
    · simp only [objInsert, if_neg hpk, objGet]
      by_cases hk : p.1 = k'
      · have : ¬ k = k' := fun h => hpk (h ▸ hk)
        simp [hk, this]
      · simp [hk, ih]

theorem objKeys_nil : objKeys [] = [] := rfl

theorem objKeys_cons (p : String × Field) (rest : List (String × Field)) :
    objKeys (p :: rest) = p.1 :: objKeys rest := rfl

theorem objKeys_insert (m : List (String × Field)) (k : String) (v : Field) :
    objKeys (objInsert m k v)
      = if k ∈ objKeys m then objKeys m else objKeys m ++ [k] := by
  induction m with
  | nil => simp [objInsert, objKeys]
  | cons p rest ih =>
    by_cases hpk : p.1 = k
    · simp only [objInsert, if_pos hpk, objKeys_cons]
      rw [hpk, if_pos (List.mem_cons_self _ _)]
    · have hne : ¬ k = p.1 := fun h => hpk h.symm
      simp only [objInsert, if_neg hpk, objKeys_cons, ih]
      by_cases hk : k ∈ objKeys rest
      · rw [if_pos hk, if_pos (List.mem_cons_of_mem _ hk)]
      · rw [if_neg hk,
          if_neg (by
            intro hmem
            rcases List.mem_cons.mp hmem with h | h
            · exact hne h
            · exact hk h),
          List.cons_append]

/-- The fold that buildFieldMap performs. -/
def insertAll (l : List Field) (m : List (String × Field)) :
    List (String × Field) :=
  l.foldl (fun m f => objInsert m f.name f) m

theorem insertAll_nil (m : List (String × Field)) : insertAll [] m = m := rfl

theorem insertAll_cons (f : Field) (l : List Field) (m : List (String × Field)) :
    insertAll (f :: l) m = insertAll l (objInsert m f.name f) := rfl

theorem cleanOwnMap_eq_insertAll (fields : List RawField) :
    cleanOwnMap fields = insertAll (normalizeFieldsArray fields) [] := rfl

theorem get_insertAll_some {l : List Field} {m : List (String × Field)}
    {key : String} {v : Field}
    (h : objGet (insertAll l m) key = some v) :
    (v ∈ l ∧ v.name = key) ∨ objGet m key = some v := by
  induction l generalizing m with
  | nil => exact Or.inr h
  | cons f rest ih =>
    rw [insertAll_cons] at h
    rcases ih h with hmem | hget
    · exact Or.inl ⟨List.mem_cons_of_mem _ hmem.1, hmem.2⟩
    · rw [objGet_insert] at hget
      by_cases hk : f.name = key
      · rw [if_pos hk] at hget
        have hv : f = v := by injection hget
        subst hv
        exact Or.inl ⟨List.mem_cons_self f rest, hk⟩
      · rw [if_neg hk] at hget
        exact Or.inr hget

theorem get_insertAll_none {l : List Field} {m : List (String × Field)}
    {key : String} :
    objGet (insertAll l m) key = none
      ↔ (∀ f ∈ l, f.name ≠ key) ∧ objGet m key = none := by
  induction l generalizing m with
  | nil => simp [insertAll_nil]
  | cons f rest ih =>
    rw [insertAll_cons, ih]
    constructor
    · rintro ⟨hall, hget⟩
      rw [objGet_insert] at hget
      by_cases hk : f.name = key
      · rw [if_pos hk] at hget; exact absurd hget (by simp)
      · rw [if_neg hk] at hget
        exact ⟨by
          intro g hg
          rcases List.mem_cons.mp hg with rfl | hg'
          · exact hk
          · exact hall g hg', hget⟩
    · rintro ⟨hall, hget⟩
      refine ⟨fun g hg => hall g (List.mem_cons_of_mem _ hg), ?_⟩
      rw [objGet_insert, if_neg (hall f (List.mem_cons_self f rest)), hget]

theorem get_insertAll_of_not_mem {l : List Field} {m : List (String × Field)}
    {key : String} (h : ∀ f ∈ l, f.name ≠ key) :
    objGet (insertAll l m) key = objGet m key := by
  induction l generalizing m with
  | nil => rfl
  | cons f rest ih =>
    rw [insertAll_cons,
      ih (fun g hg => h g (List.mem_cons_of_mem _ hg)),
      objGet_insert, if_neg (h f (List.mem_cons_self f rest))]

theorem get_insertAll_mem {l : List Field} {m : List (String × Field)}
    (hnd : (l.map (fun f => f.name)).Nodup) {v : Field} (hv : v ∈ l) :
    objGet (insertAll l m) v.name = some v := by
  induction l generalizing m with
  | nil => cases hv
  | cons f rest ih =>
    rw [List.map_cons, List.nodup_cons] at hnd
    rcases List.mem_cons.mp hv with rfl | hv'
    · rw [insertAll_cons,
        get_insertAll_of_not_mem (fun g hg heq =>
          hnd.1 (by rw [← heq]; exact List.mem_map_of_mem (fun f => f.name) hg)),
        objGet_insert, if_pos rfl]
    · rw [insertAll_cons]
      exact ih hnd.2 hv'

theorem keys_insertAll_mem {l : List Field} {m : List (String × Field)}
    {key : String} :
    key ∈ objKeys (insertAll l m)
      ↔ (∃ f ∈ l, f.name = key) ∨ key ∈ objKeys m := by
  induction l generalizing m with
  | nil => simp [insertAll_nil]
  | cons f rest ih =>
    rw [insertAll_cons, ih, objKeys_insert]
    by_cases hk : f.name ∈ objKeys m
    · rw [if_pos hk]
      constructor
      · rintro (h | h)
        · exact Or.inl ⟨_, List.mem_cons_of_mem _ h.choose_spec.1, h.choose_spec.2⟩
        · exact Or.inr h
      · rintro (⟨g, hg, rfl⟩ | h)
        · rcases List.mem_cons.mp hg with rfl | hg'
          · exact Or.inr hk
          · exact Or.inl ⟨g, hg', rfl⟩
        · exact Or.inr h
    · rw [if_neg hk]
      simp only [List.mem_append, List.mem_singleton]
      constructor
      · rintro (⟨g, hg, rfl⟩ | h | rfl)
        · exact Or.inl ⟨g, List.mem_cons_of_mem _ hg, rfl⟩
        · exact Or.inr h
        · exact Or.inl ⟨f, List.mem_cons_self f rest, rfl⟩
      · rintro (⟨g, hg, rfl⟩ | h)
        · rcases List.mem_cons.mp hg with rfl | hg'
          · exact Or.inr (Or.inr rfl)
          · exact Or.inl ⟨g, hg', rfl⟩
        · exact Or.inr (Or.inl h)

/-! ### cleanOwnMap corollaries (the own map when no field is named
__proto__) -/

theorem cleanOwn_get_some {fields : List RawField} {key : String} {v : Field}
    (h : objGet (cleanOwnMap fields) key = some v) :
    v ∈ normalizeFieldsArray fields ∧ v.name = key := by
  rw [cleanOwnMap_eq_insertAll] at h
  rcases get_insertAll_some h with hmem | hget
  · exact hmem
  · exact absurd hget (by simp [objGet])

theorem cleanOwn_get_none {fields : List RawField} {key : String} :
    objGet (cleanOwnMap fields) key = none ↔ key ∉ normNames fields := by
  rw [cleanOwnMap_eq_insertAll, get_insertAll_none]
  simp only [objGet, and_true, normNames, List.mem_map]
  constructor
  · rintro hall ⟨f, hf, rfl⟩
    exact hall f hf rfl
  · intro hno f hf heq
    exact hno ⟨f, hf, heq⟩

theorem cleanOwn_get_isSome {fields : List RawField} {key : String} :
    (objGet (cleanOwnMap fields) key).isSome = true ↔ key ∈ normNames fields := by
  rcases hv : objGet (cleanOwnMap fields) key with _ | v
  · simp [cleanOwn_get_none.mp hv]
  · simp only [Option.isSome_some, true_iff]
    have h := cleanOwn_get_some hv
    have hm : v.name ∈ normNames fields :=
      List.mem_map_of_mem (fun f => f.name) h.1
    rwa [h.2] at hm

theorem cleanOwn_get_of_nodup {fields : List RawField} {key : String} {v : Field}
    (hnd : (normNames fields).Nodup) :
    objGet (cleanOwnMap fields) key = some v
      ↔ v ∈ normalizeFieldsArray fields ∧ v.name = key := by
  constructor
  · exact cleanOwn_get_some
  · rintro ⟨hv, rfl⟩
    rw [cleanOwnMap_eq_insertAll]
    exact get_insertAll_mem hnd hv

theorem cleanOwn_keys_mem {fields : List RawField} {key : String} :
    key ∈ objKeys (cleanOwnMap fields) ↔ key ∈ normNames fields := by
  rw [cleanOwnMap_eq_insertAll, keys_insertAll_mem]
  simp only [objKeys, List.map_nil, List.not_mem_nil, or_false, normNames,
    List.mem_map]

/-! ### The full JS map: own entries and prototype -/

theorem jsSet_proto_of_ne {m : JSMap} {k : String} {v : Field}
    (h : ¬ k = "__proto__") : (jsSet m k v).proto = m.proto := by
  rw [jsSet, if_neg h]

theorem jsSet_own_of_ne {m : JSMap} {k : String} {v : Field}
    (h : ¬ k = "__proto__") : (jsSet m k v).own = objInsert m.own k v := by
  rw [jsSet, if_neg h]

theorem insertAllJS_own (l : List Field) (m : JSMap) :
    (insertAllJS l m).own
      = insertAll (l.filter fun f => !(f.name == "__proto__")) m.own := by
  induction l generalizing m with
  | nil => rfl
  | cons f rest ih =>
    by_cases hf : f.name = "__proto__"
    · have : insertAllJS (f :: rest) m = insertAllJS rest (jsSet m f.name f) := rfl
      rw [this, ih, List.filter_cons]
      have : (!(f.name == "__proto__")) = false := by simp [hf]
      rw [this, if_neg (by simp)]
      rw [jsSet, if_pos hf]
    · have : insertAllJS (f :: rest) m = insertAllJS rest (jsSet m f.name f) := rfl
      rw [this, ih, List.filter_cons]
      have hb : (!(f.name == "__proto__")) = true := by simp [hf]
      rw [hb, if_pos rfl, insertAll_cons, jsSet_own_of_ne hf]

theorem insertAllJS_proto :
    ∀ (l : List Field) (m : JSMap), (∀ f ∈ l, f.name ≠ "__proto__") →
      (insertAllJS l m).proto = m.proto := by
  intro l
  induction l with
  | nil => intro m _; rfl
  | cons f rest ih =>
    intro m h
    have hstep : insertAllJS (f :: rest) m
        = insertAllJS rest (jsSet m f.name f) := rfl
    rw [hstep, ih (jsSet m f.name f) (fun g hg => h g (List.mem_cons_of_mem _ hg)),
      jsSet_proto_of_ne (h f (List.mem_cons_self f rest))]

theorem buildFieldMap_own (fields : List RawField) :
    (buildFieldMap fields).own
      = insertAll
          ((normalizeFieldsArray fields).filter fun f => !(f.name == "__proto__"))
          [] := by
  rw [buildFieldMap, insertAllJS_own]

theorem cleanFields_no_proto {fields : List RawField} (hc : cleanFields fields) :
    ∀ f ∈ normalizeFieldsArray fields, f.name ≠ "__proto__" := by
  intro f hf heq
  exact hc f.name (List.mem_map_of_mem (fun f => f.name) hf)
    (heq ▸ List.mem_cons_self _ _)

theorem buildFieldMap_own_clean {fields : List RawField}
    (hc : cleanFields fields) :
    (buildFieldMap fields).own = cleanOwnMap fields := by
  rw [buildFieldMap_own, cleanOwnMap_eq_insertAll,
    List.filter_eq_self.mpr
      (fun f hf => by simp [cleanFields_no_proto hc f hf])]

theorem buildFieldMap_proto_clean {fields : List RawField}
    (hc : cleanFields fields) :
    (buildFieldMap fields).proto = ProtoState.objectProto := by
  rw [buildFieldMap, insertAllJS_proto _ _ (cleanFields_no_proto hc)]

theorem own_get_some {fields : List RawField} {key : String} {v : Field}
    (h : objGet (buildFieldMap fields).own key = some v) :
    v ∈ normalizeFieldsArray fields ∧ v.name = key := by
  rw [buildFieldMap_own] at h
  rcases get_insertAll_some h with hmem | hget
  · exact ⟨(List.mem_filter.mp hmem.1).1, hmem.2⟩
  · exact absurd hget (by simp [objGet])

theorem own_keys_not_proto {fields : List RawField} {key : String}
    (h : key ∈ objKeys (buildFieldMap fields).own) : key ≠ "__proto__" := by
  rw [buildFieldMap_own, keys_insertAll_mem] at h
  rcases h with ⟨f, hf, rfl⟩ | h
  · intro heq
    have := (List.mem_filter.mp hf).2
    rw [heq] at this
    simp at this
  · exact absurd h (by simp [objKeys])

theorem jsGet_own {m : JSMap} {k : String} {f : Field}
    (h : objGet m.own k = some f) : jsGet m k = JSValue.fieldV f := by
  rw [jsGet, h]

theorem jsGet_clean_some {fields : List RawField} {k : String} {f : Field}
    (hc : cleanFields fields) (h : objGet (cleanOwnMap fields) k = some f) :
    jsGet (buildFieldMap fields) k = JSValue.fieldV f :=
  jsGet_own (by rw [buildFieldMap_own_clean hc]; exact h)

theorem jsGet_clean_none {fields : List RawField} {k : String}
    (hc : cleanFields fields) (hk : k ∉ specialNames)
    (h : objGet (cleanOwnMap fields) k = none) :
    jsGet (buildFieldMap fields) k = JSValue.undef := by
  have h1 : ¬ k = "__proto__" :=
    fun he => hk (he ▸ List.mem_cons_self "__proto__" protoKeys)
  have h2 : k ∉ protoKeys := fun hm => hk (List.mem_cons_of_mem _ hm)
  rw [jsGet, buildFieldMap_own_clean hc, h, buildFieldMap_proto_clean hc]
  show (if k = "__proto__" then JSValue.inherited "__proto__"
      else if k ∈ protoKeys then JSValue.inherited k
      else JSValue.undef) = JSValue.undef
  rw [if_neg h1, if_neg h2]

theorem fieldObjGet_shape {f : Field} {k : String} {v : JSValue}
    (h : fieldObjGet f k = some v) :
    (∃ s, v = JSValue.strV s) ∨ ∃ b, v = JSValue.boolV b := by
  unfold fieldObjGet at h
  split_ifs at h
  all_goals
    first
      | exact Option.noConfusion h
      | (rcases Option.some.inj h with rfl; exact Or.inl ⟨_, rfl⟩)
      | (rcases Option.some.inj h with rfl; exact Or.inr ⟨_, rfl⟩)

theorem jsGet_fieldV_own {m : JSMap} {k : String} {f : Field}
    (hk : k ≠ "__proto__") (h : jsGet m k = JSValue.fieldV f) :
    objGet m.own k = some f := by
  obtain ⟨own, proto⟩ := m
  rw [jsGet] at h
  rcases ho : objGet own k with _ | g
  · rw [show objGet ({ own := own, proto := proto } : JSMap).own k
        = objGet own k from rfl, ho] at h
    exfalso
    cases proto with
    | objectProto =>
      replace h : (if k = "__proto__" then JSValue.inherited "__proto__"
          else if k ∈ protoKeys then JSValue.inherited k
          else JSValue.undef) = JSValue.fieldV f := h
      split_ifs at h
    | fieldProto p =>
      replace h : (match fieldObjGet p k with
          | some v => v
          | none =>
            if k = "__proto__" then JSValue.fieldV p
            else if k ∈ protoKeys then JSValue.inherited k
            else JSValue.undef) = JSValue.fieldV f := h
      rcases hfo : fieldObjGet p k with _ | v <;> rw [hfo] at h
      · replace h : (if k = "__proto__" then JSValue.fieldV p
            else if k ∈ protoKeys then JSValue.inherited k
            else JSValue.undef) = JSValue.fieldV f := h
        rw [if_neg hk] at h
        split_ifs at h
      · rcases fieldObjGet_shape hfo with ⟨s, rfl⟩ | ⟨b, rfl⟩ <;>
          exact JSValue.noConfusion h
  · rw [show objGet ({ own := own, proto := proto } : JSMap).own k
        = objGet own k from rfl, ho] at h
    replace h : JSValue.fieldV g = JSValue.fieldV f := h
    rw [Option.some_inj]
    exact JSValue.fieldV.inj h

/-! ### jsDedup lemmas -/

theorem mem_jsDedup_go (seen l : List String) (a : String) :
    a ∈ jsDedup.go seen l ↔ a ∈ l ∧ a ∉ seen := by
  induction l generalizing seen with
  | nil => simp [jsDedup.go]
  | cons x xs ih =>
    by_cases hx : x ∈ seen
    · rw [jsDedup.go, if_pos hx, ih]
      constructor
      · rintro ⟨hmem, hns⟩
        exact ⟨List.mem_cons_of_mem _ hmem, hns⟩
      · rintro ⟨hmem, hns⟩
        rcases List.mem_cons.mp hmem with rfl | hmem'
        · exact absurd hx hns
        · exact ⟨hmem', hns⟩
    · rw [jsDedup.go, if_neg hx]
      constructor
      · intro hmem
        rcases List.mem_cons.mp hmem with rfl | hmem'
        · exact ⟨List.mem_cons_self _ _, hx⟩
        · rcases (ih (x :: seen)).mp hmem' with ⟨h1, h2⟩
          exact ⟨List.mem_cons_of_mem _ h1,
            fun hs => h2 (List.mem_cons_of_mem _ hs)⟩
      · rintro ⟨hmem, hns⟩
        rcases List.mem_cons.mp hmem with rfl | hmem'
        · exact List.mem_cons_self _ _
        · by_cases hax : a = x
          · subst hax; exact List.mem_cons_self _ _
          · exact List.mem_cons_of_mem _ ((ih (x :: seen)).mpr
              ⟨hmem', fun hs => by
                rcases List.mem_cons.mp hs with h | h
                · exact hax h
                · exact hns h⟩)

theorem mem_jsDedup (l : List String) (a : String) :
    a ∈ jsDedup l ↔ a ∈ l := by
  simp [jsDedup, mem_jsDedup_go]

theorem nodup_jsDedup_go (seen l : List String) : (jsDedup.go seen l).Nodup := by
  induction l generalizing seen with
  | nil => simp [jsDedup.go]
  | cons x xs ih =>
    by_cases hx : x ∈ seen
    · rw [jsDedup.go, if_pos hx]; exact ih seen
    · rw [jsDedup.go, if_neg hx]
      refine List.nodup_cons.mpr ⟨fun hmem => ?_, ih (x :: seen)⟩
      exact ((mem_jsDedup_go (x :: seen) xs x).mp hmem).2 (List.mem_cons_self _ _)

theorem nodup_jsDedup (l : List String) : (jsDedup l).Nodup :=
  nodup_jsDedup_go [] l

/-! ### fieldDiffs lemmas -/

/-! ### JSValue evaluation lemmas -/

@[simp] theorem truthy_undef : truthy JSValue.undef = false := rfl

@[simp] theorem truthy_fieldV (f : Field) : truthy (JSValue.fieldV f) = true := rfl

@[simp] theorem truthy_inherited (k : String) :
    truthy (JSValue.inherited k) = true := rfl

@[simp] theorem typeProp_fieldV (f : Field) :
    typeProp (JSValue.fieldV f) = some f.type := rfl

@[simp] theorem typeProp_undef : typeProp JSValue.undef = none := rfl

@[simp] theorem nullableProp_fieldV (f : Field) :
    nullableProp (JSValue.fieldV f) = some f.nullable := rfl

@[simp] theorem nullableProp_undef : nullableProp JSValue.undef = none := rfl

@[simp] theorem boolBang_some (b : Bool) : boolBang (some b) = b := rfl

@[simp] theorem boolBang_none : boolBang none = false := rfl

@[simp] theorem orEmptyOpt_none : orEmptyOpt none = "" := rfl

@[simp] theorem orEmptyOpt_some (t : String) : orEmptyOpt (some t) = t := by
  show (if t = "" then "" else t) = t
  split_ifs with h
  · exact h.symm
  · rfl

theorem fieldDiffs_fieldV_eq_nil {a b : Field} :
    fieldDiffs (JSValue.fieldV a) (JSValue.fieldV b) = []
      ↔ a.type = b.type ∧ a.nullable = b.nullable := by
  unfold fieldDiffs
  by_cases ht : a.type = b.type <;> by_cases hn : a.nullable = b.nullable <;>
    simp [ht, hn]

theorem nullable_mem_fieldDiffs_fieldV {a b : Field} :
    "nullable" ∈ fieldDiffs (JSValue.fieldV a) (JSValue.fieldV b)
      ↔ a.nullable ≠ b.nullable := by
  unfold fieldDiffs
  by_cases ht : a.type = b.type <;> by_cases hn : a.nullable = b.nullable <;>
    simp [ht, hn]

/-! ### diffSchemas characterizations -/

/-- The allNames list of diffSchemas: the deduplicated own keys of the two
field maps. -/
def allNamesOf (o s : Schema) : List String :=
  jsDedup (objKeys (buildFieldMap o.fields).own
    ++ objKeys (buildFieldMap s.fields).own)

theorem mem_allNamesOf {o s : Schema} {n : String} :
    n ∈ allNamesOf o s
      ↔ n ∈ objKeys (buildFieldMap o.fields).own
        ∨ n ∈ objKeys (buildFieldMap s.fields).own := by
  rw [allNamesOf, mem_jsDedup, List.mem_append]

theorem allNamesOf_clean {o s : Schema} {n : String}
    (hc1 : cleanFields o.fields) (hc2 : cleanFields s.fields) :
    n ∈ allNamesOf o s
      ↔ n ∈ normNames o.fields ∨ n ∈ normNames s.fields := by
  rw [mem_allNamesOf, buildFieldMap_own_clean hc1, buildFieldMap_own_clean hc2,
    cleanOwn_keys_mem, cleanOwn_keys_mem]

theorem allNamesOf_not_special {o s : Schema} {n : String}
    (hc1 : cleanFields o.fields) (hc2 : cleanFields s.fields)
    (hn : n ∈ allNamesOf o s) : n ∉ specialNames := by
  rcases (allNamesOf_clean hc1 hc2).mp hn with h | h
  · exact hc1 n h
  · exact hc2 n h

theorem diffSchemas_added (o s : Schema) :
    (diffSchemas o s).added
      = (allNamesOf o s).filterMap fun n =>
          if truthy (jsGet (buildFieldMap o.fields) n) = false
              ∧ truthy (jsGet (buildFieldMap s.fields) n) = true
          then some (jsGet (buildFieldMap s.fields) n) else none := rfl

theorem diffSchemas_removed (o s : Schema) :
    (diffSchemas o s).removed
      = (allNamesOf o s).filterMap fun n =>
          if truthy (jsGet (buildFieldMap o.fields) n) = false
              ∧ truthy (jsGet (buildFieldMap s.fields) n) = true
          then none
          else if truthy (jsGet (buildFieldMap o.fields) n) = true
              ∧ truthy (jsGet (buildFieldMap s.fields) n) = false
          then some (jsGet (buildFieldMap o.fields) n) else none := rfl

theorem diffSchemas_changed (o s : Schema) :
    (diffSchemas o s).changed
      = (allNamesOf o s).filterMap fun n =>
          if truthy (jsGet (buildFieldMap o.fields) n) = false
              ∧ truthy (jsGet (buildFieldMap s.fields) n) = true
          then none
          else if truthy (jsGet (buildFieldMap o.fields) n) = true
              ∧ truthy (jsGet (buildFieldMap s.fields) n) = false
          then none
          else if (fieldDiffs (jsGet (buildFieldMap o.fields) n)
              (jsGet (buildFieldMap s.fields) n)).isEmpty
          then none
          else some
            { name := n
              before := { type := typeProp (jsGet (buildFieldMap o.fields) n)
                          nullable := nullableProp (jsGet (buildFieldMap o.fields) n) }
              after := { type := typeProp (jsGet (buildFieldMap s.fields) n)
                         nullable := nullableProp (jsGet (buildFieldMap s.fields) n) }
              diffs := fieldDiffs (jsGet (buildFieldMap o.fields) n)
                (jsGet (buildFieldMap s.fields) n) } := rfl

theorem diffSchemas_unchanged (o s : Schema) :
    (diffSchemas o s).unchanged
      = (allNamesOf o s).filterMap fun n =>
          if truthy (jsGet (buildFieldMap o.fields) n) = false
              ∧ truthy (jsGet (buildFieldMap s.fields) n) = true
          then none
          else if truthy (jsGet (buildFieldMap o.fields) n) = true
              ∧ truthy (jsGet (buildFieldMap s.fields) n) = false
          then none
          else if (fieldDiffs (jsGet (buildFieldMap o.fields) n)
              (jsGet (buildFieldMap s.fields) n)).isEmpty
          then some (jsGet (buildFieldMap s.fields) n) else none := rfl

theorem mem_added_general {o s : Schema} {v : JSValue} :
    v ∈ (diffSchemas o s).added
      ↔ ∃ n ∈ allNamesOf o s,
          truthy (jsGet (buildFieldMap o.fields) n) = false
          ∧ truthy (jsGet (buildFieldMap s.fields) n) = true
          ∧ v = jsGet (buildFieldMap s.fields) n := by
  rw [diffSchemas_added, List.mem_filterMap]
  constructor
  · rintro ⟨n, hn, harm⟩
    by_cases hcond : truthy (jsGet (buildFieldMap o.fields) n) = false
        ∧ truthy (jsGet (buildFieldMap s.fields) n) = true
    · rw [if_pos hcond] at harm
      exact ⟨n, hn, hcond.1, hcond.2, (Option.some.inj harm).symm⟩
    · rw [if_neg hcond] at harm
      exact Option.noConfusion harm
  · rintro ⟨n, hn, h1, h2, rfl⟩
    exact ⟨n, hn, by rw [if_pos ⟨h1, h2⟩]⟩

theorem mem_removed_general {o s : Schema} {v : JSValue} :
    v ∈ (diffSchemas o s).removed
      ↔ ∃ n ∈ allNamesOf o s,
          truthy (jsGet (buildFieldMap o.fields) n) = true
          ∧ truthy (jsGet (buildFieldMap s.fields) n) = false
          ∧ v = jsGet (buildFieldMap o.fields) n := by
  rw [diffSchemas_removed, List.mem_filterMap]
  constructor
  · rintro ⟨n, hn, harm⟩
    by_cases hc1 : truthy (jsGet (buildFieldMap o.fields) n) = false
        ∧ truthy (jsGet (buildFieldMap s.fields) n) = true
    · rw [if_pos hc1] at harm
      exact Option.noConfusion harm
    · rw [if_neg hc1] at harm
      by_cases hc2 : truthy (jsGet (buildFieldMap o.fields) n) = true
          ∧ truthy (jsGet (buildFieldMap s.fields) n) = false
      · rw [if_pos hc2] at harm
        exact ⟨n, hn, hc2.1, hc2.2, (Option.some.inj harm).symm⟩
      · rw [if_neg hc2] at harm
        exact Option.noConfusion harm
  · rintro ⟨n, hn, h1, h2, rfl⟩
    refine ⟨n, hn, ?_⟩
    rw [if_neg (fun hcon => by rw [hcon.1] at h1; exact Bool.noConfusion h1),
      if_pos ⟨h1, h2⟩]

theorem mem_added_clean {o s : Schema} {v : JSValue}
    (hc1 : cleanFields o.fields) (hc2 : cleanFields s.fields) :
    v ∈ (diffSchemas o s).added
      ↔ ∃ f : Field, v = JSValue.fieldV f
          ∧ objGet (cleanOwnMap o.fields) f.name = none
          ∧ objGet (cleanOwnMap s.fields) f.name = some f := by
  rw [mem_added_general]
  constructor
  · rintro ⟨n, hn, hta, htb, rfl⟩
    have hk := allNamesOf_not_special hc1 hc2 hn
    rcases hO : objGet (cleanOwnMap o.fields) n with _ | a
    · rcases hN : objGet (cleanOwnMap s.fields) n with _ | b
      · rw [jsGet_clean_none hc2 hk hN] at htb
        exact absurd htb (by simp)
      · have hbn : b.name = n := (cleanOwn_get_some hN).2
        rw [jsGet_clean_some hc2 hN]
        refine ⟨b, rfl, ?_, ?_⟩
        · rw [hbn]; exact hO
        · rw [hbn]; exact hN
    · rw [jsGet_clean_some hc1 hO] at hta
      exact absurd hta (by simp)
  · rintro ⟨f, rfl, hO, hN⟩
    have hmem : f.name ∈ normNames s.fields := by
      rw [← cleanOwn_get_isSome, hN]; rfl
    refine ⟨f.name, (allNamesOf_clean hc1 hc2).mpr (Or.inr hmem),
      ?_, ?_, ?_⟩
    · rw [jsGet_clean_none hc1 (hc2 f.name hmem) hO]
      rfl
    · rw [jsGet_clean_some hc2 hN]
      rfl
    · rw [jsGet_clean_some hc2 hN]

theorem mem_removed_clean {o s : Schema} {v : JSValue}
    (hc1 : cleanFields o.fields) (hc2 : cleanFields s.fields) :
    v ∈ (diffSchemas o s).removed
      ↔ ∃ f : Field, v = JSValue.fieldV f
          ∧ objGet (cleanOwnMap o.fields) f.name = some f
          ∧ objGet (cleanOwnMap s.fields) f.name = none := by
  rw [mem_removed_general]
  constructor
  · rintro ⟨n, hn, hta, htb, rfl⟩
    have hk := allNamesOf_not_special hc1 hc2 hn
    rcases hO : objGet (cleanOwnMap o.fields) n with _ | a
    · rw [jsGet_clean_none hc1 hk hO] at hta
      exact absurd hta (by simp)
    · rcases hN : objGet (cleanOwnMap s.fields) n with _ | b
      · have han : a.name = n := (cleanOwn_get_some hO).2
        rw [jsGet_clean_some hc1 hO]
        refine ⟨a, rfl, ?_, ?_⟩
        · rw [han]; exact hO
        · rw [han]; exact hN
      · rw [jsGet_clean_some hc2 hN] at htb
        exact absurd htb (by simp)
  · rintro ⟨f, rfl, hO, hN⟩
    have hmem : f.name ∈ normNames o.fields := by
      rw [← cleanOwn_get_isSome, hO]; rfl
    refine ⟨f.name, (allNamesOf_clean hc1 hc2).mpr (Or.inl hmem),
      ?_, ?_, ?_⟩
    · rw [jsGet_clean_some hc1 hO]
      rfl
    · rw [jsGet_clean_none hc2 (hc1 f.name hmem) hN]
      rfl
    · rw [jsGet_clean_some hc1 hO]

theorem mem_changed_clean {o s : Schema} {c : ChangedEntry}
    (hc1 : cleanFields o.fields) (hc2 : cleanFields s.fields) :
    c ∈ (diffSchemas o s).changed
      ↔ ∃ a b, objGet (cleanOwnMap o.fields) c.name = some a
          ∧ objGet (cleanOwnMap s.fields) c.name = some b
          ∧ fieldDiffs (JSValue.fieldV a) (JSValue.fieldV b) ≠ []
          ∧ c.before = { type := some a.type, nullable := some a.nullable }
          ∧ c.after = { type := some b.type, nullable := some b.nullable }
          ∧ c.diffs = fieldDiffs (JSValue.fieldV a) (JSValue.fieldV b) := by
  rw [diffSchemas_changed, List.mem_filterMap]
  constructor
  · rintro ⟨n, hn, harm⟩
    have hk := allNamesOf_not_special hc1 hc2 hn
    rcases hO : objGet (cleanOwnMap o.fields) n with _ | a <;>
      rcases hN : objGet (cleanOwnMap s.fields) n with _ | b
    · rw [jsGet_clean_none hc1 hk hO, jsGet_clean_none hc2 hk hN] at harm
      simp at harm
      exact absurd (by decide) harm.1
    · rw [jsGet_clean_none hc1 hk hO, jsGet_clean_some hc2 hN] at harm
      simp at harm
    · rw [jsGet_clean_some hc1 hO, jsGet_clean_none hc2 hk hN] at harm
      simp at harm
    · rw [jsGet_clean_some hc1 hO, jsGet_clean_some hc2 hN] at harm
      rw [if_neg (by simp), if_neg (by simp)] at harm
      by_cases hD : (fieldDiffs (JSValue.fieldV a) (JSValue.fieldV b)).isEmpty = true
      · rw [if_pos hD] at harm
        exact Option.noConfusion harm
      · rw [if_neg hD] at harm
        have hc := Option.some.inj harm
        subst hc
        exact ⟨a, b, hO, hN,
          fun hnil => hD (by rw [hnil]; rfl), rfl, rfl, rfl⟩
  · rintro ⟨a, b, hO, hN, hne, hb, ha, hd⟩
    have hmem : c.name ∈ normNames o.fields := by
      rw [← cleanOwn_get_isSome, hO]; rfl
    refine ⟨c.name, (allNamesOf_clean hc1 hc2).mpr (Or.inl hmem), ?_⟩
    rw [jsGet_clean_some hc1 hO, jsGet_clean_some hc2 hN,
      if_neg (by simp), if_neg (by simp),
      if_neg (fun hD => hne (List.isEmpty_iff.mp hD))]
    rw [show typeProp (JSValue.fieldV a) = some a.type from rfl,
      show nullableProp (JSValue.fieldV a) = some a.nullable from rfl,
      show typeProp (JSValue.fieldV b) = some b.type from rfl,
      show nullableProp (JSValue.fieldV b) = some b.nullable from rfl,
      ← hb, ← ha, ← hd]

theorem mem_unchanged_clean {o s : Schema} {v : JSValue}
    (hc1 : cleanFields o.fields) (hc2 : cleanFields s.fields) :
    v ∈ (diffSchemas o s).unchanged
      ↔ ∃ a b : Field, v = JSValue.fieldV b
          ∧ objGet (cleanOwnMap o.fields) b.name = some a
          ∧ objGet (cleanOwnMap s.fields) b.name = some b
          ∧ fieldDiffs (JSValue.fieldV a) (JSValue.fieldV b) = [] := by
  rw [diffSchemas_unchanged, List.mem_filterMap]
  constructor
  · rintro ⟨n, hn, harm⟩
    have hk := allNamesOf_not_special hc1 hc2 hn
    rcases hO : objGet (cleanOwnMap o.fields) n with _ | a <;>
      rcases hN : objGet (cleanOwnMap s.fields) n with _ | b
    · exfalso
      rcases (allNamesOf_clean hc1 hc2).mp hn with hmem | hmem
      · rw [← cleanOwn_get_isSome, hO] at hmem
        exact Bool.noConfusion hmem
      · rw [← cleanOwn_get_isSome, hN] at hmem
        exact Bool.noConfusion hmem
    · rw [jsGet_clean_none hc1 hk hO, jsGet_clean_some hc2 hN] at harm
      simp at harm
    · rw [jsGet_clean_some hc1 hO, jsGet_clean_none hc2 hk hN] at harm
      simp at harm
    · rw [jsGet_clean_some hc1 hO, jsGet_clean_some hc2 hN] at harm
      rw [if_neg (by simp), if_neg (by simp)] at harm
      by_cases hD : (fieldDiffs (JSValue.fieldV a) (JSValue.fieldV b)).isEmpty = true
      · rw [if_pos hD] at harm
        have hbv := Option.some.inj harm
        subst hbv
        refine ⟨a, b, rfl, ?_, ?_, List.isEmpty_iff.mp hD⟩
        · rw [(cleanOwn_get_some hN).2]; exact hO
        · rw [(cleanOwn_get_some hN).2]; exact hN
      · rw [if_neg hD] at harm
        exact Option.noConfusion harm
  · rintro ⟨a, b, rfl, hO, hN, hnil⟩
    have hmem : b.name ∈ normNames s.fields := by
      rw [← cleanOwn_get_isSome, hN]; rfl
    refine ⟨b.name, (allNamesOf_clean hc1 hc2).mpr (Or.inr hmem), ?_⟩
    rw [jsGet_clean_some hc1 hO, jsGet_clean_some hc2 hN,
      if_neg (by simp), if_neg (by simp), if_pos (by rw [hnil]; rfl)]

/-! ### The names of each diff group, as a filter of allNames -/

/-- The name of a pushed diff entry, when it is a field-descriptor object. -/
def jsName : JSValue → Option String
  | JSValue.fieldV f => some f.name
  | _ => none

theorem map_name_filterMap {β : Type} (l : List String) (g : String → Option β)
    (nameOf : β → String) (hg : ∀ n x, g n = some x → nameOf x = n) :
    (l.filterMap g).map nameOf = l.filter (fun n => (g n).isSome) := by
  induction l with
  | nil => rfl
  | cons x xs ih =>
    rcases hx : g x with _ | y
    · simp [List.filterMap_cons, List.filter_cons, hx, ih]
    · simp [List.filterMap_cons, List.filter_cons, hx, ih, hg x y hx]

theorem names_of_filterMap {β : Type} (nameOf : β → Option String) :
    ∀ (l : List String) (g : String → Option β),
      (∀ n ∈ l, ∀ x, g n = some x → nameOf x = some n) →
      (l.filterMap g).filterMap nameOf
        = l.filter (fun n => (g n).isSome) := by
  intro l
  induction l with
  | nil => intro g _; rfl
  | cons x xs ih =>
    intro g hg
    have ih2 := ih g (fun n hn y h => hg n (List.mem_cons_of_mem _ hn) y h)
    rcases hx : g x with _ | y
    · simp [List.filterMap_cons, List.filter_cons, hx, ih2]
    · have hname := hg x (List.mem_cons_self _ _) y hx
      simp [List.filterMap_cons, List.filter_cons, hx, ih2, hname]

theorem added_names (o s : Schema)
    (hc1 : cleanFields o.fields) (hc2 : cleanFields s.fields) :
    (diffSchemas o s).added.filterMap jsName
      = (allNamesOf o s).filter fun n =>
          (if truthy (jsGet (buildFieldMap o.fields) n) = false
              ∧ truthy (jsGet (buildFieldMap s.fields) n) = true
          then some (jsGet (buildFieldMap s.fields) n) else none).isSome := by
  rw [diffSchemas_added]
  apply names_of_filterMap
  intro n hn x h
  by_cases hcond : truthy (jsGet (buildFieldMap o.fields) n) = false
      ∧ truthy (jsGet (buildFieldMap s.fields) n) = true
  · rw [if_pos hcond] at h
    have hx := Option.some.inj h
    subst hx
    have hk := allNamesOf_not_special hc1 hc2 hn
    rcases hN : objGet (cleanOwnMap s.fields) n with _ | b
    · rw [jsGet_clean_none hc2 hk hN] at hcond
      exact absurd hcond.2 (by simp)
    · rw [jsGet_clean_some hc2 hN,
        show jsName (JSValue.fieldV b) = some b.name from rfl,
        (cleanOwn_get_some hN).2]
  · rw [if_neg hcond] at h
    exact Option.noConfusion h

theorem removed_names (o s : Schema)
    (hc1 : cleanFields o.fields) (hc2 : cleanFields s.fields) :
    (diffSchemas o s).removed.filterMap jsName
      = (allNamesOf o s).filter fun n =>
          (if truthy (jsGet (buildFieldMap o.fields) n) = false
              ∧ truthy (jsGet (buildFieldMap s.fields) n) = true
          then none
          else if truthy (jsGet (buildFieldMap o.fields) n) = true
              ∧ truthy (jsGet (buildFieldMap s.fields) n) = false
          then some (jsGet (buildFieldMap o.fields) n) else none).isSome := by
  rw [diffSchemas_removed]
  apply names_of_filterMap
  intro n hn x h
  by_cases hca : truthy (jsGet (buildFieldMap o.fields) n) = false
      ∧ truthy (jsGet (buildFieldMap s.fields) n) = true
  · rw [if_pos hca] at h
    exact Option.noConfusion h
  · rw [if_neg hca] at h
    by_cases hcb : truthy (jsGet (buildFieldMap o.fields) n) = true
        ∧ truthy (jsGet (buildFieldMap s.fields) n) = false
    · rw [if_pos hcb] at h
      have hx := Option.some.inj h
      subst hx
      have hk := allNamesOf_not_special hc1 hc2 hn
      rcases hO : objGet (cleanOwnMap o.fields) n with _ | a
      · rw [jsGet_clean_none hc1 hk hO] at hcb
        exact absurd hcb.1 (by simp)
      · rw [jsGet_clean_some hc1 hO,
          show jsName (JSValue.fieldV a) = some a.name from rfl,
          (cleanOwn_get_some hO).2]
    · rw [if_neg hcb] at h
      exact Option.noConfusion h

theorem changed_names (o s : Schema) :
    (diffSchemas o s).changed.map (fun c => c.name)
      = (allNamesOf o s).filter fun n =>
          ((if truthy (jsGet (buildFieldMap o.fields) n) = false
              ∧ truthy (jsGet (buildFieldMap s.fields) n) = true
          then none
          else if truthy (jsGet (buildFieldMap o.fields) n) = true
              ∧ truthy (jsGet (buildFieldMap s.fields) n) = false
          then none
          else if (fieldDiffs (jsGet (buildFieldMap o.fields) n)
              (jsGet (buildFieldMap s.fields) n)).isEmpty
          then none
          else some
            { name := n
              before := { type := typeProp (jsGet (buildFieldMap o.fields) n)
                          nullable := nullableProp (jsGet (buildFieldMap o.fields) n) }
              after := { type := typeProp (jsGet (buildFieldMap s.fields) n)
                         nullable := nullableProp (jsGet (buildFieldMap s.fields) n) }
              diffs := fieldDiffs (jsGet (buildFieldMap o.fields) n)
                (jsGet (buildFieldMap s.fields) n) }) : Option ChangedEntry).isSome := by
  rw [diffSchemas_changed]
  apply map_name_filterMap
  intro n x h
  by_cases hca : truthy (jsGet (buildFieldMap o.fields) n) = false
      ∧ truthy (jsGet (buildFieldMap s.fields) n) = true
  · rw [if_pos hca] at h
    exact Option.noConfusion h
  · rw [if_neg hca] at h
    by_cases hcb : truthy (jsGet (buildFieldMap o.fields) n) = true
        ∧ truthy (jsGet (buildFieldMap s.fields) n) = false
    · rw [if_pos hcb] at h
      exact Option.noConfusion h
    · rw [if_neg hcb] at h
      by_cases hD : (fieldDiffs (jsGet (buildFieldMap o.fields) n)
          (jsGet (buildFieldMap s.fields) n)).isEmpty = true
      · rw [if_pos hD] at h
        exact Option.noConfusion h
      · rw [if_neg hD] at h
        have hx := Option.some.inj h
        subst hx
        rfl

theorem unchanged_names (o s : Schema)
    (hc1 : cleanFields o.fields) (hc2 : cleanFields s.fields) :
    (diffSchemas o s).unchanged.filterMap jsName
      = (allNamesOf o s).filter fun n =>
          (if truthy (jsGet (buildFieldMap o.fields) n) = false
              ∧ truthy (jsGet (buildFieldMap s.fields) n) = true
          then none
          else if truthy (jsGet (buildFieldMap o.fields) n) = true
              ∧ truthy (jsGet (buildFieldMap s.fields) n) = false
          then none
          else if (fieldDiffs (jsGet (buildFieldMap o.fields) n)
              (jsGet (buildFieldMap s.fields) n)).isEmpty
          then some (jsGet (buildFieldMap s.fields) n) else none).isSome := by
  rw [diffSchemas_unchanged]
  apply names_of_filterMap
  intro n hn x h
  by_cases hca : truthy (jsGet (buildFieldMap o.fields) n) = false
      ∧ truthy (jsGet (buildFieldMap s.fields) n) = true
  · rw [if_pos hca] at h
    exact Option.noConfusion h
  · rw [if_neg hca] at h
    by_cases hcb : truthy (jsGet (buildFieldMap o.fields) n) = true
        ∧ truthy (jsGet (buildFieldMap s.fields) n) = false
    · rw [if_pos hcb] at h
      exact Option.noConfusion h
    · rw [if_neg hcb] at h
      by_cases hD : (fieldDiffs (jsGet (buildFieldMap o.fields) n)
          (jsGet (buildFieldMap s.fields) n)).isEmpty = true
      · rw [if_pos hD] at h
        have hx := Option.some.inj h
        subst hx
        have hk := allNamesOf_not_special hc1 hc2 hn
        rcases hN : objGet (cleanOwnMap s.fields) n with _ | b
        · exfalso
          rcases hO : objGet (cleanOwnMap o.fields) n with _ | a
          · rcases (allNamesOf_clean hc1 hc2).mp hn with hmem | hmem
            · rw [← cleanOwn_get_isSome, hO] at hmem
              exact Bool.noConfusion hmem
            · rw [← cleanOwn_get_isSome, hN] at hmem
              exact Bool.noConfusion hmem
          · rw [jsGet_clean_some hc1 hO, jsGet_clean_none hc2 hk hN] at hcb
            exact hcb ⟨rfl, rfl⟩
        · rw [jsGet_clean_some hc2 hN,
            show jsName (JSValue.fieldV b) = some b.name from rfl,
            (cleanOwn_get_some hN).2]
      · rw [if_neg hD] at h
        exact Option.noConfusion h

theorem count_filter_nodup {l : List String} (hnd : l.Nodup) {p : String → Bool}
    {n : String} (hn : n ∈ l) :
    (l.filter p).count n = if p n then 1 else 0 := by
  by_cases hp : p n
  · rw [if_pos hp, List.count_filter hp]
    exact List.count_eq_one_of_mem hnd hn
  · rw [if_neg hp, List.count_eq_zero]
    intro hmem
    exact hp (List.mem_filter.mp hmem).2

/-! ### Fragment scanner lemmas -/

theorem emitRaw_join (raw : List Char) (fs : List Fragment) :
    ((emitRaw raw fs).map (fun f => f.chars)).flatten
      = raw ++ (fs.map (fun f => f.chars)).flatten := by
  unfold emitRaw
  by_cases h : raw.isEmpty
  · rw [if_pos h, List.isEmpty_iff.mp h, List.nil_append]
  · rw [if_neg h]
    simp

theorem mem_emitRaw {raw : List Char} {fs : List Fragment} {f : Fragment}
    (hf : f ∈ emitRaw raw fs) :
    f ∈ fs ∨ (raw ≠ [] ∧ f = { kind := FragKind.rawText, chars := raw }) := by
  unfold emitRaw at hf
  by_cases h : raw.isEmpty
  · rw [if_pos h] at hf
    exact Or.inl hf
  · rw [if_neg h] at hf
    rcases List.mem_cons.mp hf with rfl | hf'
    · exact Or.inr ⟨fun hnil => h (by rw [hnil]; rfl), rfl⟩
    · exact Or.inl hf'

theorem take_cons_ne_nil {c : Char} {rest : List Char} {n : ℕ} (hn : 0 < n) :
    (c :: rest).take n ≠ [] := by
  cases n with
  | zero => exact absurd hn (by omega)
  | succ m => simp [List.take_cons]

theorem scanAux_join (rules : List DetectorRule) (raw buf : List Char) :
    ((scanAux rules raw buf).map (fun f => f.chars)).flatten = raw ++ buf := by
  induction raw, buf using scanAux.induct rules with
  | case1 raw =>
    rw [scanAux, emitRaw_join]
    simp
  | case2 raw c rest k n hfm hn ih =>
    rw [scanAux]
    simp only [hfm]
    rw [dif_pos hn, emitRaw_join]
    simp only [List.map_cons, List.flatten_cons, ih, List.nil_append]
    rw [List.take_append_drop]
  | case3 raw c rest k n hfm hn ih =>
    rw [scanAux]
    simp only [hfm]
    rw [dif_neg hn, ih, List.append_assoc]
    rfl
  | case4 raw c rest hfm ih =>
    rw [scanAux]
    simp only [hfm]
    rw [ih, List.append_assoc]
    rfl

theorem scanAux_chars_ne_nil (rules : List DetectorRule) (raw buf : List Char) :
    ∀ f ∈ scanAux rules raw buf, f.chars ≠ [] := by
  induction raw, buf using scanAux.induct rules with
  | case1 raw =>
    intro f hf
    rw [scanAux] at hf
    rcases mem_emitRaw hf with hmem | ⟨hraw, rfl⟩
    · exact absurd hmem (List.not_mem_nil f)
    · exact hraw
  | case2 raw c rest k n hfm hn ih =>
    intro f hf
    rw [scanAux] at hf
    simp only [hfm] at hf
    rw [dif_pos hn] at hf
    rcases mem_emitRaw hf with hmem | ⟨hraw, rfl⟩
    · rcases List.mem_cons.mp hmem with rfl | hrec
      · exact take_cons_ne_nil hn
      · exact ih f hrec
    · exact hraw
  | case3 raw c rest k n hfm hn ih =>
    intro f hf
    rw [scanAux] at hf
    simp only [hfm] at hf
    rw [dif_neg hn] at hf
    exact ih f hf
  | case4 raw c rest hfm ih =>
    intro f hf
    rw [scanAux] at hf
    simp only [hfm] at hf
    exact ih f hf

/-! ### computeStability lemmas -/

theorem computeStability_of_lt {history : List Schema}
    (h : history.length < 2) : computeStability history = 100 := by
  unfold computeStability
  rw [if_pos h]

theorem computeStability_of_ge {history : List Schema}
    (h : ¬ history.length < 2) :
    computeStability history
      = jsRound ((((history.zip history.tail).countP isStableStep : ℕ) : ℚ)
          / ((((history.zip history.tail).length : ℕ)) : ℚ) * 100) := by
  unfold computeStability
  rw [if_neg h]

theorem jsRound_100 : jsRound 100 = 100 := by
  unfold jsRound
  norm_num

theorem pairs_length_pos {history : List Schema}
    (h : ¬ history.length < 2) :
    0 < (history.zip history.tail).length := by
  rw [List.length_zip, List.length_tail]
  omega

/-! ### Claim theorems -/

/-- C1 counterexample: with pairwise distinct names, a field named toString
present only in the new schema is not classified as added: the read
oldMap[toString] yields the inherited Object.prototype method (truthy), so the
diff sends toString to the changed group (with an undefined before type) and
the added list stays empty. -/
theorem c1_proto_counterexample :
    (normNames schemaT1.fields).Nodup
    ∧ (normNames schemaT2.fields).Nodup
    ∧ "toString" ∈ normNames schemaT2.fields
    ∧ "toString" ∉ normNames schemaT1.fields
    ∧ (diffSchemas schemaT1 schemaT2).added = []
    ∧ "toString" ∈ (diffSchemas schemaT1 schemaT2).changed.map (fun c => c.name) := by
  decide

/-- C1 amended: for schemas whose field names are pairwise distinct and avoid
__proto__ and the Object.prototype member names, the diff classifies fields
exactly as stated: added holds exactly the descriptors of names present in new
and absent in old, removed exactly those present in old and absent in new, and
changed exactly the names present in both whose type or nullability differ,
each entry carrying before and after taken from the old and new descriptor. -/
theorem c1_diff_classification (oldS newS : Schema)
    (hc1 : cleanFields oldS.fields) (hc2 : cleanFields newS.fields)
    (h1 : (normNames oldS.fields).Nodup) (h2 : (normNames newS.fields).Nodup) :
    (∀ v, v ∈ (diffSchemas oldS newS).added
      ↔ ∃ f, v = JSValue.fieldV f ∧ f ∈ normalizeFieldsArray newS.fields
          ∧ f.name ∉ normNames oldS.fields)
    ∧ (∀ v, v ∈ (diffSchemas oldS newS).removed
      ↔ ∃ f, v = JSValue.fieldV f ∧ f ∈ normalizeFieldsArray oldS.fields
          ∧ f.name ∉ normNames newS.fields)
    ∧ (∀ c ∈ (diffSchemas oldS newS).changed, ∃ a b,
        a ∈ normalizeFieldsArray oldS.fields
        ∧ b ∈ normalizeFieldsArray newS.fields
        ∧ a.name = c.name ∧ b.name = c.name
        ∧ (a.type ≠ b.type ∨ a.nullable ≠ b.nullable)
        ∧ c.before = { type := some a.type, nullable := some a.nullable }
        ∧ c.after = { type := some b.type, nullable := some b.nullable })
    ∧ (∀ a b, a ∈ normalizeFieldsArray oldS.fields
        → b ∈ normalizeFieldsArray newS.fields
        → a.name = b.name → (a.type ≠ b.type ∨ a.nullable ≠ b.nullable)
        → ∃ c ∈ (diffSchemas oldS newS).changed, c.name = a.name
            ∧ c.before = { type := some a.type, nullable := some a.nullable }
            ∧ c.after = { type := some b.type, nullable := some b.nullable }) := by
  refine ⟨?_, ?_, ?_, ?_⟩
  · intro v
    rw [mem_added_clean hc1 hc2]
    constructor
    · rintro ⟨f, rfl, hO, hN⟩
      exact ⟨f, rfl, ((cleanOwn_get_of_nodup h2).mp hN).1,
        cleanOwn_get_none.mp hO⟩
    · rintro ⟨f, rfl, hmem, hno⟩
      exact ⟨f, rfl, cleanOwn_get_none.mpr hno,
        (cleanOwn_get_of_nodup h2).mpr ⟨hmem, rfl⟩⟩
  · intro v
    rw [mem_removed_clean hc1 hc2]
    constructor
    · rintro ⟨f, rfl, hO, hN⟩
      exact ⟨f, rfl, ((cleanOwn_get_of_nodup h1).mp hO).1,
        cleanOwn_get_none.mp hN⟩
    · rintro ⟨f, rfl, hmem, hno⟩
      exact ⟨f, rfl, (cleanOwn_get_of_nodup h1).mpr ⟨hmem, rfl⟩,
        cleanOwn_get_none.mpr hno⟩
  · intro c hc
    rcases (mem_changed_clean hc1 hc2).mp hc with ⟨a, b, hO, hN, hne, hb, ha, _⟩
    refine ⟨a, b, (cleanOwn_get_some hO).1, (cleanOwn_get_some hN).1,
      (cleanOwn_get_some hO).2, (cleanOwn_get_some hN).2, ?_, hb, ha⟩
    by_contra hcon
    push_neg at hcon
    exact hne (fieldDiffs_fieldV_eq_nil.mpr hcon)
  · intro a b hma hmb hnm hdiff
    have hO : objGet (cleanOwnMap oldS.fields) a.name = some a :=
      (cleanOwn_get_of_nodup h1).mpr ⟨hma, rfl⟩
    have hN : objGet (cleanOwnMap newS.fields) a.name = some b :=
      (cleanOwn_get_of_nodup h2).mpr ⟨hmb, hnm.symm⟩
    have hne : fieldDiffs (JSValue.fieldV a) (JSValue.fieldV b) ≠ [] := by
      intro hnil
      rcases fieldDiffs_fieldV_eq_nil.mp hnil with ⟨ht, hn⟩
      rcases hdiff with h | h
      · exact h ht
      · exact h hn
    exact ⟨{ name := a.name
             before := { type := some a.type, nullable := some a.nullable }
             after := { type := some b.type, nullable := some b.nullable }
             diffs := fieldDiffs (JSValue.fieldV a) (JSValue.fieldV b) },
      (mem_changed_clean hc1 hc2).mpr ⟨a, b, hO, hN, hne, rfl, rfl, rfl⟩,
      rfl, rfl, rfl⟩

/-- Witness for the amended C1 at the example schemas of spec scenario 2. -/
theorem c1_diff_classification_witness :
    (cleanFields schemaV1.fields ∧ cleanFields schemaV2.fields
      ∧ (normNames schemaV1.fields).Nodup ∧ (normNames schemaV2.fields).Nodup)
    ∧ (∀ v, v ∈ (diffSchemas schemaV1 schemaV2).added
        ↔ ∃ f, v = JSValue.fieldV f ∧ f ∈ normalizeFieldsArray schemaV2.fields
            ∧ f.name ∉ normNames schemaV1.fields) :=
  ⟨⟨by decide, by decide, by decide, by decide⟩,
    (c1_diff_classification schemaV1 schemaV2
      (by decide) (by decide) (by decide) (by decide)).1⟩

/-- C2 counterexample: with a field named toString only in the second schema,
the changed list of the diff contains the name toString, which does not exist
in the first schema (the inherited oldMap[toString] is truthy, so the compare
branch runs instead of the added branch). -/
theorem c2_proto_counterexample :
    "toString" ∈ (diffSchemas schemaT1 schemaT2).changed.map (fun c => c.name)
    ∧ "toString" ∉ normNames schemaT1.fields := by
  decide

/-- C2 amended: for every pair of schemas, no field name appears in both the
added and the removed group of their diff; and when the field names avoid
__proto__ and the Object.prototype member names, every name in the changed
group names a field existing in both schemas. -/
theorem c2_diff_symmetry (S1 S2 : Schema) :
    (∀ f g : Field, JSValue.fieldV f ∈ (diffSchemas S1 S2).added
      → JSValue.fieldV g ∈ (diffSchemas S1 S2).removed → f.name ≠ g.name)
    ∧ (cleanFields S1.fields → cleanFields S2.fields →
        ∀ c ∈ (diffSchemas S1 S2).changed,
          c.name ∈ normNames S1.fields ∧ c.name ∈ normNames S2.fields) := by
  constructor
  · intro f g hf hg heq
    rcases mem_added_general.mp hf with ⟨n1, hn1, hta1, _, hv1⟩
    rcases mem_removed_general.mp hg with ⟨n2, hn2, _, _, hv2⟩
    have hp1 : n1 ≠ "__proto__" := by
      rcases mem_allNamesOf.mp hn1 with h | h
      · exact own_keys_not_proto h
      · exact own_keys_not_proto h
    have hp2 : n2 ≠ "__proto__" := by
      rcases mem_allNamesOf.mp hn2 with h | h
      · exact own_keys_not_proto h
      · exact own_keys_not_proto h
    have hown1 : objGet (buildFieldMap S2.fields).own n1 = some f :=
      jsGet_fieldV_own hp1 hv1.symm
    have hown2 : objGet (buildFieldMap S1.fields).own n2 = some g :=
      jsGet_fieldV_own hp2 hv2.symm
    have hn12 : n1 = n2 := by
      rw [← (own_get_some hown1).2, ← (own_get_some hown2).2, heq]
    subst hn12
    rw [jsGet_own hown2] at hta1
    exact Bool.noConfusion hta1
  · intro hc1 hc2 c hc
    rcases (mem_changed_clean hc1 hc2).mp hc with ⟨a, b, hO, hN, _⟩
    exact ⟨by rw [← cleanOwn_get_isSome, hO]; rfl,
      by rw [← cleanOwn_get_isSome, hN]; rfl⟩

/-- Witness for the amended C2 at schemas with a nonempty added, removed, and
changed group. -/
theorem c2_diff_symmetry_witness :
    fieldR.name ≠ fieldP.name
    ∧ changedQ.name ∈ normNames schemaW1.fields
    ∧ changedQ.name ∈ normNames schemaW2.fields := by
  have h := c2_diff_symmetry schemaW1 schemaW2
  exact ⟨h.1 fieldR fieldP (by decide) (by decide),
    (h.2 (by decide) (by decide) changedQ (by decide)).1,
    (h.2 (by decide) (by decide) changedQ (by decide)).2⟩

/-- C3 counterexample: diffing a schema against itself returns a diff value
with a nonempty unchanged group, so an unchanged path does appear in the
returned diff, contradicting the claim that the returned diff consists only of
added, removed, and modified entries. -/
theorem c3_unchanged_counterexample :
    (diffSchemas schemaV1 schemaV1).unchanged ≠ []
    ∧ JSValue.fieldV idField ∈ (diffSchemas schemaV1 schemaV1).unchanged
    ∧ (diffSchemas schemaV1 schemaV1).added = []
    ∧ (diffSchemas schemaV1 schemaV1).removed = []
    ∧ (diffSchemas schemaV1 schemaV1).changed = [] := by decide

/-- C3 amended: for schemas whose field names avoid __proto__ and the
Object.prototype member names, a path with identical type and nullability in
both schemas appears in none of the added, removed, and changed groups; it is
returned in the separate unchanged group instead of being omitted from the
returned value. -/
theorem c3_unchanged_excluded (o s : Schema) (n : String) (a b : Field)
    (hc1 : cleanFields o.fields) (hc2 : cleanFields s.fields)
    (hO : objGet (cleanOwnMap o.fields) n = some a)
    (hN : objGet (cleanOwnMap s.fields) n = some b)
    (ht : a.type = b.type) (hnul : a.nullable = b.nullable) :
    n ∉ (diffSchemas o s).added.filterMap jsName
    ∧ n ∉ (diffSchemas o s).removed.filterMap jsName
    ∧ n ∉ (diffSchemas o s).changed.map (fun c => c.name)
    ∧ n ∈ (diffSchemas o s).unchanged.filterMap jsName := by
  have hnb : b.name = n := (cleanOwn_get_some hN).2
  have hna : a.name = n := (cleanOwn_get_some hO).2
  refine ⟨?_, ?_, ?_, ?_⟩
  · intro hmem
    rcases List.mem_filterMap.mp hmem with ⟨v, hv, hjv⟩
    rcases (mem_added_clean hc1 hc2).mp hv with ⟨f, rfl, hfO, _⟩
    have hfn : f.name = n := Option.some.inj hjv
    rw [hfn, hO] at hfO
    exact Option.noConfusion hfO
  · intro hmem
    rcases List.mem_filterMap.mp hmem with ⟨v, hv, hjv⟩
    rcases (mem_removed_clean hc1 hc2).mp hv with ⟨f, rfl, _, hfN⟩
    have hfn : f.name = n := Option.some.inj hjv
    rw [hfn, hN] at hfN
    exact Option.noConfusion hfN
  · intro hmem
    rcases List.mem_map.mp hmem with ⟨c, hcm, hcn⟩
    rcases (mem_changed_clean hc1 hc2).mp hcm with ⟨a2, b2, hO2, hN2, hne, _⟩
    rw [hcn, hO] at hO2
    rw [hcn, hN] at hN2
    have ha2 : a = a2 := Option.some.inj hO2
    have hb2 : b = b2 := Option.some.inj hN2
    exact hne (fieldDiffs_fieldV_eq_nil.mpr
      ⟨by rw [← ha2, ← hb2]; exact ht, by rw [← ha2, ← hb2]; exact hnul⟩)
  · refine List.mem_filterMap.mpr ⟨JSValue.fieldV b,
      (mem_unchanged_clean hc1 hc2).mpr ⟨a, b, rfl, ?_, ?_,
        fieldDiffs_fieldV_eq_nil.mpr ⟨ht, hnul⟩⟩, ?_⟩
    · rw [hnb]; exact hO
    · rw [hnb]; exact hN
    · rw [show jsName (JSValue.fieldV b) = some b.name from rfl, hnb]

/-- Witness for the amended C3: the unchanged id field of the example schema
diffed against itself. -/
theorem c3_unchanged_excluded_witness :
    "id" ∉ (diffSchemas schemaV1 schemaV1).added.filterMap jsName
    ∧ "id" ∉ (diffSchemas schemaV1 schemaV1).removed.filterMap jsName
    ∧ "id" ∉ (diffSchemas schemaV1 schemaV1).changed.map (fun c => c.name)
    ∧ "id" ∈ (diffSchemas schemaV1 schemaV1).unchanged.filterMap jsName :=
  c3_unchanged_excluded schemaV1 schemaV1 "id" idField idField
    (by decide) (by decide) (by decide) (by decide) rfl rfl

/-- C4 counterexample: a field named __proto__ is assigned to no group at all:
the buildFieldMap assignment invokes the inherited prototype setter and
creates no own key, so Object.keys lists nothing and the diff of the schema
against itself has all four groups empty, although __proto__ is a field name
of the schema (and the schema has pairwise distinct names). -/
theorem c4_proto_counterexample :
    (normNames schemaProto.fields).Nodup
    ∧ "__proto__" ∈ normNames schemaProto.fields
    ∧ diffSchemas schemaProto schemaProto
        = { added := [], removed := [], changed := [], unchanged := [] } := by
  decide

/-- C4 amended: for schemas with pairwise distinct names avoiding __proto__
and the Object.prototype member names, every name occurring in either schema
lands in exactly one of the four groups with exactly one entry, and every
group again holds pairwise distinct names. -/
theorem c4_partition (oldS newS : Schema)
    (hc1 : cleanFields oldS.fields) (hc2 : cleanFields newS.fields)
    (h1 : (normNames oldS.fields).Nodup) (h2 : (normNames newS.fields).Nodup) :
    (∀ n, n ∈ normNames oldS.fields ∨ n ∈ normNames newS.fields →
      ((diffSchemas oldS newS).added.filterMap jsName).count n
        + ((diffSchemas oldS newS).removed.filterMap jsName).count n
        + ((diffSchemas oldS newS).changed.map (fun c => c.name)).count n
        + ((diffSchemas oldS newS).unchanged.filterMap jsName).count n = 1)
    ∧ ((diffSchemas oldS newS).added.filterMap jsName).Nodup
    ∧ ((diffSchemas oldS newS).removed.filterMap jsName).Nodup
    ∧ ((diffSchemas oldS newS).changed.map (fun c => c.name)).Nodup
    ∧ ((diffSchemas oldS newS).unchanged.filterMap jsName).Nodup := by
  have hnd : (allNamesOf oldS newS).Nodup := nodup_jsDedup _
  refine ⟨?_, ?_, ?_, ?_, ?_⟩
  · intro n hn
    have hAll := (allNamesOf_clean hc1 hc2).mpr hn
    have hk := allNamesOf_not_special hc1 hc2 hAll
    rw [added_names oldS newS hc1 hc2, removed_names oldS newS hc1 hc2,
      changed_names, unchanged_names oldS newS hc1 hc2]
    simp only [count_filter_nodup hnd hAll]
    rcases hO : objGet (cleanOwnMap oldS.fields) n with _ | a <;>
      rcases hN : objGet (cleanOwnMap newS.fields) n with _ | b
    · exfalso
      rcases hn with hmem | hmem
      · rw [← cleanOwn_get_isSome, hO] at hmem
        exact Bool.noConfusion hmem
      · rw [← cleanOwn_get_isSome, hN] at hmem
        exact Bool.noConfusion hmem
    · simp [jsGet_clean_none hc1 hk hO, jsGet_clean_some hc2 hN]
    · simp [jsGet_clean_some hc1 hO, jsGet_clean_none hc2 hk hN]
    · by_cases hD : (fieldDiffs (JSValue.fieldV a) (JSValue.fieldV b)).isEmpty = true
      · simp [jsGet_clean_some hc1 hO, jsGet_clean_some hc2 hN, hD]
      · simp [jsGet_clean_some hc1 hO, jsGet_clean_some hc2 hN, hD]
  · rw [added_names oldS newS hc1 hc2]; exact hnd.filter _
  · rw [removed_names oldS newS hc1 hc2]; exact hnd.filter _
  · rw [changed_names]; exact hnd.filter _
  · rw [unchanged_names oldS newS hc1 hc2]; exact hnd.filter _

/-- Witness for the amended C4: the name q of the example diff is counted
exactly once across the four groups. -/
theorem c4_partition_witness :
    ((diffSchemas schemaW1 schemaW2).added.filterMap jsName).count "q"
      + ((diffSchemas schemaW1 schemaW2).removed.filterMap jsName).count "q"
      + ((diffSchemas schemaW1 schemaW2).changed.map (fun c => c.name)).count "q"
      + ((diffSchemas schemaW1 schemaW2).unchanged.filterMap jsName).count "q"
      = 1 :=
  (c4_partition schemaW1 schemaW2 (by decide) (by decide) (by decide)
    (by decide)).1 "q" (Or.inr (by decide))

/-- C5: spec example scenario 2: diffing the version-1 schema {id, price:
string} against the version-2 schema {id, price: decimal, currency} adds
exactly currency, removes nothing, and changes exactly price from type string
to type decimal. -/
theorem c5_example_scenario :
    (diffSchemas schemaV1 schemaV2).added
        = [JSValue.fieldV
            { name := "currency", type := "string", nullable := true, new := false }]
    ∧ (diffSchemas schemaV1 schemaV2).removed = []
    ∧ (diffSchemas schemaV1 schemaV2).changed
        = [{ name := "price"
             before := { type := some "string", nullable := some true }
             after := { type := some "decimal", nullable := some true }
             diffs := ["type"] }] := by decide

/-- C7 (modelled from the spec, section 4.1): for any detector rule list and
any input buffer, the fragments produced by the scanner cover the buffer
exactly — their spans, concatenated in order, reconstruct the input with no
gaps and no overlaps — and every fragment covers a nonempty span; residue
matched by no rule is emitted as RawText fragments rather than dropped. -/
theorem c7_detector_coverage (rules : List DetectorRule) (buf : List Char) :
    ((detectFragments rules buf).map (fun f => f.chars)).flatten = buf
    ∧ (detectFragments rules buf).all (fun f => !f.chars.isEmpty) = true := by
  constructor
  · have h := scanAux_join rules [] buf
    rw [List.nil_append] at h
    exact h
  · rw [List.all_eq_true]
    intro f hf
    have hne := scanAux_chars_ne_nil rules [] buf f hf
    cases hc : f.chars with
    | nil => exact absurd hc hne
    | cons x xs => rfl

/-- C8 counterexample: on a 201-version history whose 200 adjacent diffs
contain exactly one nonempty diff, computeStability rounds 99.5 up and returns
100 even though not every adjacent diff is empty, refuting the claimed
equals-100-only-if-all-diffs-empty direction. -/
theorem c8_rounding_counterexample :
    2 ≤ roundingHistory.length
    ∧ computeStability roundingHistory = 100
    ∧ allStable roundingHistory = false := by
  refine ⟨by decide, ?_, by decide⟩
  have hcount :
      (roundingHistory.zip roundingHistory.tail).countP isStableStep = 199 := by
    decide
  have hlen : (roundingHistory.zip roundingHistory.tail).length = 200 := by
    decide
  rw [computeStability_of_ge (by decide), hcount, hlen]
  unfold jsRound
  push_cast
  norm_num

/-- C8 amended: the stability score is an integer between 0 and 100; it equals
100 for every history with fewer than two entries, and for longer histories it
equals 100 whenever every adjacent diff has empty added, removed, and changed
groups (the converse direction fails because of rounding, see the
counterexample). -/
theorem c8_stability_bounds (history : List Schema) :
    0 ≤ computeStability history ∧ computeStability history ≤ 100
    ∧ (history.length < 2 → computeStability history = 100)
    ∧ (allStable history = true → computeStability history = 100) := by
  by_cases hlen : history.length < 2
  · rw [computeStability_of_lt hlen]
    exact ⟨by norm_num, by norm_num, fun _ => rfl, fun _ => rfl⟩
  · have hpos := pairs_length_pos hlen
    have hst : (history.zip history.tail).countP isStableStep
        ≤ (history.zip history.tail).length := List.countP_le_length _
    have htQ : (0:ℚ) < ((history.zip history.tail).length : ℚ) := by
      exact_mod_cast hpos
    have hsQ : (0:ℚ) ≤ ((history.zip history.tail).countP isStableStep : ℚ) :=
      Nat.cast_nonneg _
    have hdiv : ((history.zip history.tail).countP isStableStep : ℚ)
        / ((history.zip history.tail).length : ℚ) ≤ 1 :=
      (div_le_one htQ).mpr (by exact_mod_cast hst)
    have hq0 : (0:ℚ) ≤ ((history.zip history.tail).countP isStableStep : ℚ)
        / ((history.zip history.tail).length : ℚ) * 100 := by positivity
    rw [computeStability_of_ge hlen]
    refine ⟨?_, ?_, fun h => absurd h hlen, fun hall => ?_⟩
    · unfold jsRound
      exact Int.le_floor.mpr (by push_cast; linarith)
    · unfold jsRound
      have hlt : (⌊((history.zip history.tail).countP isStableStep : ℚ)
          / ((history.zip history.tail).length : ℚ) * 100 + 1 / 2⌋ : ℤ) < 101 :=
        Int.floor_lt.mpr (by push_cast; linarith)
      omega
    · have hset : (history.zip history.tail).countP isStableStep
          = (history.zip history.tail).length := by
        rw [List.countP_eq_length]
        intro p hp
        rw [allStable, List.all_eq_true] at hall
        exact hall p hp
      rw [hset, div_self (ne_of_gt htQ), one_mul]
      exact jsRound_100

/-- Witness for the amended C8: a two-entry history with no change scores
100. -/
theorem c8_stability_bounds_witness :
    allStable [schemaAx, schemaAx] = true
    ∧ computeStability [schemaAx, schemaAx] = 100 :=
  ⟨by decide, (c8_stability_bounds [schemaAx, schemaAx]).2.2.2 (by decide)⟩

/-- C9 counterexample: for a field named __proto__ explicitly non-nullable in
the old schema and unmarked in the new one, the diff reports no changed entry
at all: the assignment in buildFieldMap hits the prototype setter, the name
never becomes an own key, and allNames is empty — although exactly one of the
two descriptors has nullable explicitly false. -/
theorem c9_proto_counterexample :
    exProtoNF.nullable = some false
    ∧ exProtoField.nullable ≠ some false
    ∧ (normalizeField exProtoNF).name = "__proto__"
    ∧ (normalizeField exProtoField).name = "__proto__"
    ∧ (diffSchemas schemaProtoNF schemaProto).changed = [] := by decide

/-- C9 amended: normalization maps an absent nullable marker to nullable =
true and only an explicit nullable: false to non-nullable; and for schemas
with pairwise distinct field names avoiding __proto__ and the
Object.prototype member names, the diff reports a nullability change for a
name present in both schemas exactly when one of the two raw descriptors has
nullable explicitly false and the other does not. -/
theorem c9_nullable_default (rf : RawField) (oldS newS : Schema)
    (rfo rfn : RawField) (n : String)
    (hc1 : cleanFields oldS.fields) (hc2 : cleanFields newS.fields)
    (h1 : (normNames oldS.fields).Nodup) (h2 : (normNames newS.fields).Nodup)
    (ho : rfo ∈ oldS.fields) (hnw : rfn ∈ newS.fields)
    (hno : (normalizeField rfo).name = n) (hnn : (normalizeField rfn).name = n) :
    ((normalizeField rf).nullable = true ↔ rf.nullable ≠ some false)
    ∧ ((∃ c ∈ (diffSchemas oldS newS).changed, c.name = n ∧ "nullable" ∈ c.diffs)
        ↔ ((rfo.nullable = some false ∧ rfn.nullable ≠ some false)
            ∨ (rfo.nullable ≠ some false ∧ rfn.nullable = some false))) := by
  have hO : objGet (cleanOwnMap oldS.fields) n = some (normalizeField rfo) :=
    (cleanOwn_get_of_nodup h1).mpr ⟨List.mem_map_of_mem normalizeField ho, hno⟩
  have hN : objGet (cleanOwnMap newS.fields) n = some (normalizeField rfn) :=
    (cleanOwn_get_of_nodup h2).mpr ⟨List.mem_map_of_mem normalizeField hnw, hnn⟩
  refine ⟨by simp [normalizeField], ?_⟩
  constructor
  · rintro ⟨c, hc, hcn, hcd⟩
    rcases (mem_changed_clean hc1 hc2).mp hc with ⟨a, b, hO2, hN2, hne, hb, ha, hd⟩
    rw [hcn, hO] at hO2
    rw [hcn, hN] at hN2
    have ha2 : normalizeField rfo = a := Option.some.inj hO2
    have hb2 : normalizeField rfn = b := Option.some.inj hN2
    rw [hd, ← ha2, ← hb2] at hcd
    have hnull := nullable_mem_fieldDiffs_fieldV.mp hcd
    by_cases hp : rfo.nullable = some false <;>
      by_cases hq : rfn.nullable = some false
    · exact absurd (by simp [normalizeField, hp, hq]) hnull
    · exact Or.inl ⟨hp, hq⟩
    · exact Or.inr ⟨hp, hq⟩
    · exact absurd (by simp [normalizeField, hp, hq]) hnull
  · intro hcase
    have hnull : (normalizeField rfo).nullable ≠ (normalizeField rfn).nullable := by
      rcases hcase with ⟨hp, hq⟩ | ⟨hp, hq⟩ <;> simp [normalizeField, hp, hq]
    have hne : fieldDiffs (JSValue.fieldV (normalizeField rfo))
        (JSValue.fieldV (normalizeField rfn)) ≠ [] :=
      fun hnil => hnull (fieldDiffs_fieldV_eq_nil.mp hnil).2
    exact ⟨{ name := n
             before := { type := some (normalizeField rfo).type
                         nullable := some (normalizeField rfo).nullable }
             after := { type := some (normalizeField rfn).type
                        nullable := some (normalizeField rfn).nullable }
             diffs := fieldDiffs (JSValue.fieldV (normalizeField rfo))
               (JSValue.fieldV (normalizeField rfn)) },
      (mem_changed_clean hc1 hc2).mpr
        ⟨normalizeField rfo, normalizeField rfn, hO, hN, hne, rfl, rfl, rfl⟩,
      rfl, nullable_mem_fieldDiffs_fieldV.mpr hnull⟩

/-- Witness for the amended C9: a field explicitly non-nullable in the old
schema and with no nullable marker in the new schema is reported as a
nullability change. -/
theorem c9_nullable_default_witness :
    ((normalizeField rfNullFalse).nullable = true
      ↔ rfNullFalse.nullable ≠ some false)
    ∧ ((∃ c ∈ (diffSchemas schemaN1 schemaN2).changed,
          c.name = "n" ∧ "nullable" ∈ c.diffs)
        ↔ ((rfNullFalse.nullable = some false ∧ rfNullAbsent.nullable ≠ some false)
            ∨ (rfNullFalse.nullable ≠ some false
                ∧ rfNullAbsent.nullable = some false))) :=
  c9_nullable_default rfNullFalse schemaN1 schemaN2 rfNullFalse rfNullAbsent "n"
    (by decide) (by decide) (by decide) (by decide) (by decide) (by decide)
    (by decide) (by decide)

/-- C10 counterexample: fieldTimeline for the name toString over a version
with no fields at all reports present = true, because the property read
map[toString] yields the inherited Object.prototype method, which is truthy —
although no field of that name occurs in the version's field list. -/
theorem c10_proto_counterexample :
    "toString" ∉ normNames (entryFields histEmpty)
    ∧ fieldTimeline "toString" [histEmpty]
        = [{ version := "v?", created_at := none, present := true,
             type := none, nullable := some false }] := by decide

/-- C10 amended: for a field name that is neither __proto__ nor an
Object.prototype member, over a history whose versions' field names are also
free of those names, the timeline has exactly one entry per history element in
order; an entry is present exactly when a field of the given name occurs in
that version's field list, and an absent entry reports null type and null
nullable. -/
theorem c10_field_timeline (fieldName : String) (history : List HistEntry)
    (hname : fieldName ∉ specialNames)
    (hclean : ∀ e ∈ history, cleanFields (entryFields e)) :
    (fieldTimeline fieldName history).length = history.length
    ∧ (∀ (i : ℕ) (e : HistEntry), history[i]? = some e →
        ∃ te : TimelineEntry, (fieldTimeline fieldName history)[i]? = some te
          ∧ (te.present = true ↔ fieldName ∈ normNames (entryFields e))
          ∧ (te.present = false → te.type = none ∧ te.nullable = none)) := by
  constructor
  · rw [fieldTimeline, List.length_map]
  · intro i e he
    have hmem : e ∈ history := by
      have := List.getElem?_eq_some_iff.mp he
      rcases this with ⟨hlt, rfl⟩
      exact List.getElem_mem hlt
    have hce := hclean e hmem
    refine ⟨timelineEntry fieldName e, ?_, ?_, ?_⟩
    · rw [fieldTimeline, List.getElem?_map, he]
      rfl
    · show truthy (jsGet (buildFieldMap (entryFields e)) fieldName) = true
        ↔ fieldName ∈ normNames (entryFields e)
      rcases hg : objGet (cleanOwnMap (entryFields e)) fieldName with _ | v
      · rw [jsGet_clean_none hce hname hg]
        simp [cleanOwn_get_none.mp hg]
      · rw [jsGet_clean_some hce hg]
        have : fieldName ∈ normNames (entryFields e) := by
          rw [← cleanOwn_get_isSome, hg]; rfl
        simp [this]
    · intro hpres
      rcases hg : objGet (cleanOwnMap (entryFields e)) fieldName with _ | v
      · have hj := jsGet_clean_none hce hname hg
        constructor <;> simp [timelineEntry, hj]
      · exfalso
        simp [timelineEntry, jsGet_clean_some hce hg] at hpres

/-- Witness for the amended C10: in the example history, price is reported
absent with null type and nullable in version 2. -/
theorem c10_field_timeline_witness :
    ∃ te : TimelineEntry, (fieldTimeline "price" exTimelineHistory)[1]? = some te
      ∧ (te.present = true ↔ "price" ∈ normNames (entryFields histE2))
      ∧ (te.present = false → te.type = none ∧ te.nullable = none) :=
  (c10_field_timeline "price" exTimelineHistory (by decide) (by decide)).2
    1 histE2 (by decide)

end DataVerser
